import Mathlib

/-!
Verification of the formula-preserving translation pipeline of the
`since_translator` repository (Python), via a shallow embedding in Lean.

Python strings are modelled as `List Char`; Python regular-expression
matching is modelled by a small backtracking engine (`RE`, `reMatch`)
whose semantics follows CPython's `re` module (leftmost match, ordered
alternation, greedy/lazy quantifiers, `finditer` scanning); machine
floats that only ever hold small decimal constants (temperatures,
backoff factors) are modelled as rationals; network calls are modelled
as oracle functions supplied as parameters.
-/

set_option maxRecDepth 8000

namespace SinceTranslator

/-- Python strings as lists of characters. -/
abbrev Str := List Char

/-- Coerce a Lean string literal to the `List Char` model. -/
def strOf (s : String) : Str := s.data

/-- Python slice `t[s:e]` for natural indices (clamping semantics). -/
def slice (t : Str) (s e : Nat) : Str := (t.drop s).take (e - s)

/-- Characters stripped by Python `str.strip()` (whitespace; the ASCII
subset relevant to this code base). -/
def isPySpace (c : Char) : Bool :=
  c == ' ' || c == '\t' || c == '\n' || c == '\r' || c == '\x0b' || c == '\x0c'

/-- Python `str.strip()`. -/
def pyStrip (t : Str) : Str :=
  ((t.dropWhile isPySpace).reverse.dropWhile isPySpace).reverse

/-- Fueled worker for Python `str.replace` (replace all non-overlapping
occurrences, scanning left to right, never rescanning replaced text).
The fuel is an upper bound on the number of characters still to scan;
`replaceAll` supplies enough fuel for the whole input. -/
def replaceAllGo (needle repl : Str) : Nat → Str → Str
  | 0, t => t
  | _ + 1, [] => []
  | fuel + 1, c :: rest =>
    if needle ≠ [] ∧ needle.isPrefixOf (c :: rest) then
      repl ++ replaceAllGo needle repl fuel ((c :: rest).drop needle.length)
    else
      c :: replaceAllGo needle repl fuel rest

/-- Python `t.replace(needle, repl)`.  (All needles in this code base are
non-empty placeholder tokens, so the empty-needle corner of Python's
`replace` is never exercised.) -/
def replaceAll (needle repl t : Str) : Str := replaceAllGo needle repl t.length t

/-- The decimal digit character of `d` (for `d < 10`), as in Python `str(n)`. -/
def digitChar (d : Nat) : Char := Char.ofNat (48 + d)

/-- Fueled worker for Python `str(n)` on naturals. -/
def natDigitsGo : Nat → Nat → Str → Str
  | 0, _, acc => acc
  | fuel + 1, n, acc =>
    if n < 10 then digitChar n :: acc
    else natDigitsGo fuel (n / 10) (digitChar (n % 10) :: acc)

/-- Python `str(n)` for a natural number `n`: its decimal digits. -/
def natDigits (n : Nat) : Str := natDigitsGo (n + 1) n []

/-- `occursAt pat t p` states that `pat` occurs in `t` at position `p`. -/
def occursAt (pat t : Str) (p : Nat) : Prop := pat <+: t.drop p

instance (pat t : Str) (p : Nat) : Decidable (occursAt pat t p) := by
  unfold occursAt; infer_instance

/-- Python membership test `needle in t` (substring containment). -/
def containsStr (t needle : Str) : Bool := decide (needle <:+: t)

/-- Decimal value of a digit string (used to invert `natDigits`). -/
def digitsVal (t : Str) : Nat := t.foldl (fun a c => a * 10 + (c.toNat - 48)) 0

-- ### A small backtracking regex engine (CPython `re` semantics)

/-- Abstract syntax of the regular expressions used by the code base.
`rep lo hi lzy a` is the quantifier `a{lo,hi}` (with `hi = none` for an
unbounded repeat), lazy when `lzy` is true.  `look a` is the lookahead
`(?=a)`; `bol`/`eol` are `^`/`$` in MULTILINE mode; `wordB` is `\b`. -/
inductive RE where
  | eps
  | chr (c : Char)
  | cls (p : Char → Bool)
  | seq (a b : RE)
  | alt (a b : RE)
  | rep (lo : Nat) (hi : Option Nat) (lzy : Bool) (a : RE)
  | look (a : RE)
  | bol
  | eol
  | wordB

/-- Word characters for `\b` under `re.UNICODE`, restricted to the
character ranges that occur in this code base (ASCII alphanumerics and
underscore, Greek, Cyrillic). -/
def isWordChar (c : Char) : Bool :=
  ('a' ≤ c && c ≤ 'z') || ('A' ≤ c && c ≤ 'Z') || ('0' ≤ c && c ≤ '9') || c == '_'
  || (0x370 ≤ c.toNat && c.toNat ≤ 0x3FF) || (0x400 ≤ c.toNat && c.toNat ≤ 0x4FF)

/-- Backtracking matcher in continuation-passing style.  `reMatch t fuel
re pos k` tries to match `re` in `t` starting at `pos` and calls the
continuation `k` with the end position of each candidate match, in
exactly the order CPython's backtracking explores them (alternatives
left to right, greedy quantifiers longest first, lazy shortest first);
the first `some` wins.  The fuel bounds the recursion depth and is
chosen large enough never to be exhausted on the inputs evaluated. -/
def reMatch (t : Str) : Nat → RE → Nat → (Nat → Option Nat) → Option Nat
  | 0, _, _, _ => none
  | fuel + 1, re, pos, k =>
    match re with
    | .eps => k pos
    | .chr c =>
      match t.get? pos with
      | some c' => if c' = c then k (pos + 1) else none
      | none => none
    | .cls p =>
      match t.get? pos with
      | some c' => if p c' then k (pos + 1) else none
      | none => none
    | .seq a b => reMatch t fuel a pos (fun q => reMatch t fuel b q k)
    | .alt a b => (reMatch t fuel a pos k).orElse (fun _ => reMatch t fuel b pos k)
    | .look a =>
      match reMatch t fuel a pos some with
      | some _ => k pos
      | none => none
    | .bol =>
      if pos = 0 then k pos
      else
        match t.get? (pos - 1) with
        | some c => if c = '\n' then k pos else none
        | none => none
    | .eol =>
      if pos = t.length then k pos
      else
        match t.get? pos with
        | some c => if c = '\n' then k pos else none
        | none => none
    | .wordB =>
      let wl : Bool :=
        match t.get? (pos - 1) with
        | some c => decide (pos ≠ 0) && isWordChar c
        | none => false
      let wr : Bool :=
        match t.get? pos with
        | some c => isWordChar c
        | none => false
      if wl != wr then k pos else none
    | .rep lo hi lzy a =>
      if lo > 0 then
        reMatch t fuel a pos (fun q => reMatch t fuel (.rep (lo - 1) (hi.map (· - 1)) lzy a) q k)
      else
        match hi with
        | some 0 => k pos
        | _ =>
          if lzy then
            (k pos).orElse fun _ =>
              reMatch t fuel a pos fun q =>
                if q = pos then none else reMatch t fuel (.rep 0 (hi.map (· - 1)) lzy a) q k
          else
            (reMatch t fuel a pos fun q =>
              if q = pos then none
              else reMatch t fuel (.rep 0 (hi.map (· - 1)) lzy a) q k).orElse
              fun _ => k pos

/-- Fuel bound for the matcher: generous linear bound on the
backtracking depth of the patterns of this code base. -/
def matchFuel (n : Nat) : Nat := 200000 + 50 * n

/-- Worker for `re.finditer`: scan positions left to right, record each
match, resume after its end (or one past it for an empty match). -/
def findGo (t : Str) (re : RE) : Nat → Nat → List (Nat × Nat)
  | 0, _ => []
  | steps + 1, p =>
    if p > t.length then []
    else
      match reMatch t (matchFuel t.length) re p some with
      | some e => (p, e) :: findGo t re steps (if e > p then e else p + 1)
      | none => findGo t re steps (p + 1)

/-- `re.finditer(pattern, t)`: the spans of all matches. -/
def findAll (re : RE) (t : Str) : List (Nat × Nat) := findGo t re (t.length + 2) 0

/-- `re.search(pattern, t) is not None`. -/
def reSearch (re : RE) (t : Str) : Bool := !(findAll re t).isEmpty

/-- Fold a list of regexes into their concatenation. -/
def sq (rs : List RE) : RE := rs.foldr RE.seq RE.eps

-- ### Character classes used by the patterns of `formula_extractor.py`

/-- Class `[^\n]`. -/
def clsNotNL (c : Char) : Bool := c != '\n'

/-- The class `.` under `re.DOTALL` (any character). -/
def clsAny (_ : Char) : Bool := true

/-- Class `[=+\-*/^_]` (the "math operator" class). -/
def clsMathOp (c : Char) : Bool :=
  c == '=' || c == '+' || c == '-' || c == '*' || c == '/' || c == '^' || c == '_'

/-- Class `\s` (whitespace), same ASCII subset as `isPySpace`. -/
def clsSpace (c : Char) : Bool := isPySpace c

/-- Class `\d`. -/
def clsDigit (c : Char) : Bool := c.isDigit

/-- ASCII letters. -/
def clsAsciiAlpha (c : Char) : Bool := ('a' ≤ c && c ≤ 'z') || ('A' ≤ c && c ≤ 'Z')

/-- ASCII letters and digits (class `[a-zA-Z0-9]`). -/
def clsAsciiAlnum (c : Char) : Bool := clsAsciiAlpha c || c.isDigit

/-- Greek ranges `α-ω` and `Α-Ω` plus `Δ` as they appear in the code's
range-based classes (`Δ` lies inside `Α-Ω`). -/
def clsGreekRange (c : Char) : Bool :=
  (0x3B1 ≤ c.toNat && c.toNat ≤ 0x3C9) || (0x391 ≤ c.toNat && c.toNat ≤ 0x3A9)

/-- Class `[a-zA-Zα-ωΑ-ΩΔ]` (variables / letters). -/
def clsLetter (c : Char) : Bool := clsAsciiAlpha c || clsGreekRange c

/-- Class `[a-zA-Z0-9α-ωΑ-ΩΔ+\-]` (subscript/superscript bodies). -/
def clsSubBody (c : Char) : Bool :=
  clsAsciiAlnum c || clsGreekRange c || c == '+' || c == '-'

/-- Class `[a-zA-Z0-9α-ωΑ-ΩΔ]` (fraction operands). -/
def clsAlnumGreek (c : Char) : Bool := clsAsciiAlnum c || clsGreekRange c

/-- Class `[_^]`. -/
def clsUnderCaret (c : Char) : Bool := c == '_' || c == '^'

/-- The explicitly listed Greek letters of the `greek_letters` pattern
(all lower-case letters except final sigma, all listed upper-case
letters; unlike the range class this list has no `ς` and no unassigned
code point). -/
def clsGreekListed (c : Char) : Bool :=
  (0x3B1 ≤ c.toNat && c.toNat ≤ 0x3C9 && c.toNat != 0x3C2)
  || (0x391 ≤ c.toNat && c.toNat ≤ 0x3A9 && c.toNat != 0x3A2)

/-- Class `[^)]`. -/
def clsNotRParen (c : Char) : Bool := c != ')'

-- ### The eight patterns of `FormulaExtractor._build_patterns`

/-- Pattern 1, `latex_display`: `\\\[(.*?)\\\]` with `re.DOTALL`. -/
def patLatexDisplay : RE :=
  sq [.chr '\\', .chr '[', .rep 0 none true (.cls clsAny), .chr '\\', .chr ']']

/-- Pattern 2, `latex_inline`: `\\\((.*?)\\\)` with `re.DOTALL`. -/
def patLatexInline : RE :=
  sq [.chr '\\', .chr '(', .rep 0 none true (.cls clsAny), .chr '\\', .chr ')']

/-- Pattern 3, `dollar_formula`: `\$\$?(.*?)\$\$?` with `re.DOTALL`. -/
def patDollar : RE :=
  sq [.chr '$', .rep 0 (some 1) false (.chr '$'), .rep 0 none true (.cls clsAny),
      .chr '$', .rep 0 (some 1) false (.chr '$')]

/-- Pattern 4, `math_expression`:
`(?:^|\n)([^\n]{1,200}?[=+\-*/^_]\s*[^\n]{1,200}?)(?=\n|$)` with `re.MULTILINE`. -/
def patMathExpr : RE :=
  sq [.alt .bol (.chr '\n'),
      .rep 1 (some 200) true (.cls clsNotNL),
      .cls clsMathOp,
      .rep 0 none false (.cls clsSpace),
      .rep 1 (some 200) true (.cls clsNotNL),
      .look (.alt (.chr '\n') .eol)]

/-- First alternative of pattern 5:
`\b[a-zA-Zα-ωΑ-ΩΔ][_^]\{?[a-zA-Z0-9α-ωΑ-ΩΔ+\-]+\}?`. -/
def patSubSup1 : RE :=
  sq [.wordB, .cls clsLetter, .cls clsUnderCaret,
      .rep 0 (some 1) false (.chr '{'),
      .rep 1 none false (.cls clsSubBody),
      .rep 0 (some 1) false (.chr '}')]

/-- Second alternative of pattern 5:
`\b[a-zA-Zα-ωΑ-ΩΔ]\{?[a-zA-Z0-9α-ωΑ-ΩΔ+\-]+\}?[_^]\{?[a-zA-Z0-9α-ωΑ-ΩΔ+\-]+\}?`. -/
def patSubSup2 : RE :=
  sq [.wordB, .cls clsLetter,
      .rep 0 (some 1) false (.chr '{'),
      .rep 1 none false (.cls clsSubBody),
      .rep 0 (some 1) false (.chr '}'),
      .cls clsUnderCaret,
      .rep 0 (some 1) false (.chr '{'),
      .rep 1 none false (.cls clsSubBody),
      .rep 0 (some 1) false (.chr '}')]

/-- Pattern 5, `subscript_superscript` (alternation of the two forms). -/
def patSubSup : RE := .alt patSubSup1 patSubSup2

/-- Pattern 6, `greek_letters`:
`\b[αβγ...ωΑΒΓ...Ω]\s*[=+\-*/^_]\s*[^\n]{1,100}`. -/
def patGreek : RE :=
  sq [.wordB, .cls clsGreekListed,
      .rep 0 none false (.cls clsSpace),
      .cls clsMathOp,
      .rep 0 none false (.cls clsSpace),
      .rep 1 (some 100) false (.cls clsNotNL)]

/-- Pattern 7, `fractions`:
`\([^)]{1,50}\)\s*/\s*\([^)]{1,50}\)|[a-zA-Z0-9α-ωΑ-ΩΔ]+\s*/\s*[a-zA-Z0-9α-ωΑ-ΩΔ]+`. -/
def patFractions : RE :=
  .alt
    (sq [.chr '(', .rep 1 (some 50) false (.cls clsNotRParen), .chr ')',
         .rep 0 none false (.cls clsSpace), .chr '/', .rep 0 none false (.cls clsSpace),
         .chr '(', .rep 1 (some 50) false (.cls clsNotRParen), .chr ')'])
    (sq [.rep 1 none false (.cls clsAlnumGreek),
         .rep 0 none false (.cls clsSpace), .chr '/', .rep 0 none false (.cls clsSpace),
         .rep 1 none false (.cls clsAlnumGreek)])

/-- Pattern 8, `numbered_formula`:
`\([0-9]+\.[0-9]+\)\s*[^\n]{1,200}?[=+\-*/^_]`. -/
def patNumbered : RE :=
  sq [.chr '(', .rep 1 none false (.cls clsDigit), .chr '.',
      .rep 1 none false (.cls clsDigit), .chr ')',
      .rep 0 none false (.cls clsSpace),
      .rep 1 (some 200) true (.cls clsNotNL),
      .cls clsMathOp]

/-- The pattern list of `_build_patterns`, in priority order. -/
def extractorPatterns : List RE :=
  [patLatexDisplay, patLatexInline, patDollar, patMathExpr,
   patSubSup, patGreek, patFractions, patNumbered]

-- ### Regexes used by `FormulaExtractor._is_likely_formula`

/-- `\\[\[\(]|\\[\]\)]|\$\$?` (LaTeX markers / dollar signs). -/
def patLikelyLatex : RE :=
  .alt (sq [.chr '\\', .cls fun c => c == '[' || c == '('])
    (.alt (sq [.chr '\\', .cls fun c => c == ']' || c == ')'])
      (sq [.chr '$', .rep 0 (some 1) false (.chr '$')]))

/-- `[_^]\{?[a-zA-Z0-9]+\}?` (subscript / superscript shapes). -/
def patLikelySub : RE :=
  sq [.cls clsUnderCaret, .rep 0 (some 1) false (.chr '{'),
      .rep 1 none false (.cls clsAsciiAlnum), .rep 0 (some 1) false (.chr '}')]

-- ### `FormulaExtractor`

/-- A collected regex match: start offset, end offset, and the matched
text `match.group(0)` (always the slice of the input at the span). -/
abbrev FMatch := Nat × Nat × Str

/-- `FormulaExtractor._is_likely_formula`. -/
def isLikelyFormula (t0 : Str) : Bool :=
  let t := pyStrip t0
  if t.length < 3 then false
  else if reSearch patLikelyLatex t then true
  else
    let hasOps := reSearch (.cls clsMathOp) t
    let hasVars := reSearch (.cls clsLetter) t
    let hasNums := reSearch (.cls clsDigit) t
    if hasOps && (hasVars || hasNums) then
      if t.length > 300 then false else true
    else if reSearch patLikelySub t then true
    else false

/-- The overlap test of `FormulaExtractor.extract`:
`start < existing_end and end > existing_start`. -/
def spanOverlap (s e : Nat) (m : FMatch) : Bool :=
  decide (s < m.2.1) && decide (m.1 < e)

/-- Inner collection loop: append each match of one pattern unless it
overlaps an already-collected match. -/
def collectGo (t : Str) (acc : List FMatch) : List (Nat × Nat) → List FMatch
  | [] => acc
  | (s, e) :: ms =>
    if acc.any (spanOverlap s e) then collectGo t acc ms
    else collectGo t (acc ++ [(s, e, slice t s e)]) ms

/-- `all_matches` of `FormulaExtractor.extract`: all pattern matches, in
pattern order, filtered by the overlap test. -/
def collectMatches (t : Str) : List FMatch :=
  extractorPatterns.foldl (fun acc re => collectGo t acc (findAll re t)) []

/-- Stable insertion into a list sorted by descending start offset
(later elements go after equal keys, as in Python's stable sort). -/
def insDesc (m : FMatch) : List FMatch → List FMatch
  | [] => [m]
  | x :: xs => if m.1 ≤ x.1 then x :: insDesc m xs else m :: x :: xs

/-- `all_matches.sort(key=lambda x: x[0], reverse=True)` (stable). -/
def sortDesc (ms : List FMatch) : List FMatch := ms.foldl (fun acc m => insDesc m acc) []

/-- The placeholder `f"<<<FORMULA_{i}>>>"`. -/
def marker (i : Nat) : Str := strOf "<<<FORMULA_" ++ natDigits i ++ strOf ">>>"

/-- The replacement loop of `FormulaExtractor.extract`: walk the sorted
matches, skip those shorter than 3 characters (stripped) or not
formula-like, and replace the rest with fresh markers (splicing at the
original offsets, which stay valid because processing is by descending
start). -/
def maskGo : List FMatch → Str → List (Nat × Str) → Nat → Str × List (Nat × Str)
  | [], res, fs, _ => (res, fs)
  | (s, e, txt) :: ms, res, fs, idx =>
    if (pyStrip txt).length < 3 then maskGo ms res fs idx
    else if !isLikelyFormula txt then maskGo ms res fs idx
    else maskGo ms (res.take s ++ marker idx ++ res.drop e) (fs ++ [(idx, txt)]) (idx + 1)

/-- `FormulaExtractor.extract`: returns the masked text and the formula
table (association list in insertion order, i.e. ascending index, as a
Python dict preserves insertion order). -/
def pyExtract (t : Str) : Str × List (Nat × Str) :=
  maskGo (sortDesc (collectMatches t)) t [] 0

/-- `FormulaExtractor.restore`: replace each `<<<FORMULA_i>>>` by its
formula, iterating the table in insertion order (ascending index). -/
def pyRestore (t : Str) (fs : List (Nat × Str)) : Str :=
  fs.foldl (fun acc f => replaceAll (marker f.1) f.2 acc) t

/-- The fixed prefix of every formula placeholder. -/
def markerPre : Str := strOf "<<<FORMULA_"

/-- The fixed suffix of every formula placeholder. -/
def markerSuf : Str := strOf ">>>"

/-- A string is clean when the placeholder prefix `<<<FORMULA_` does not
occur in it (the hypothesis of the amended round-trip claim). -/
def Clean (s : Str) : Prop := ¬ (markerPre <:+: s)

instance (s : Str) : Decidable (Clean s) := by unfold Clean; infer_instance

-- ### Masked-text structure: interleavings of clean blocks and markers

/-- `Marked lo W` states that `W` is a concatenation of clean blocks and
placeholders whose indices are all at least `lo` (the shape of a masked
text whose low-indexed placeholders have already been restored). -/
inductive Marked (lo : Nat) : Str → Prop
  | nil (s : Str) (h : Clean s) : Marked lo s
  | cons (s : Str) (j : Nat) (W : Str) (h : Clean s) (hj : lo ≤ j) (hW : Marked lo W) :
      Marked lo (s ++ (marker j ++ W))

-- ### Lemmas about the masking fold of `FormulaExtractor.extract`

/-- The keep condition of the replacement loop: at least 3 characters
after stripping, and classified as formula-like. -/
def KeepM (m : FMatch) : Prop :=
  ¬ (pyStrip m.2.2).length < 3 ∧ isLikelyFormula m.2.2 = true

instance (m : FMatch) : Decidable (KeepM m) := by unfold KeepM; infer_instance

/-- Separation invariant of the processing order: whenever a kept span
is processed, every later kept span ends at or before its start (a
consequence of descending-start order and pairwise non-overlap). -/
def DescSepK : List FMatch → Prop
  | [] => True
  | m :: ms => (KeepM m → ∀ m' ∈ ms, KeepM m' → m'.2.1 ≤ m.1) ∧ DescSepK ms

/-- Non-overlap of two collected matches (symmetric form of the code's
rejection test). -/
def NoOv (m m' : FMatch) : Prop := ¬ (m.1 < m'.2.1 ∧ m'.1 < m.2.1)

/-- Sanity of one collected match with respect to the input text. -/
def MOk (t : Str) (m : FMatch) : Prop :=
  m.1 ≤ m.2.1 ∧ m.2.1 ≤ t.length ∧ m.2.2 = slice t m.1 m.2.1

-- ### Protection placeholders of `TranslationService` and token uniqueness

/-- The fixed prefix of every protection placeholder. -/
def protPre : Str := strOf "__PROTECTED_"

/-- The fixed suffix of every protection placeholder. -/
def protSuf : Str := strOf "__"

/-- The placeholder `f"__PROTECTED_{i}__"` allocated by
`create_placeholder` in `TranslationService._protect_formulas_and_notations`. -/
def protTok (i : Nat) : Str := protPre ++ (natDigits i ++ protSuf)

/-- The allocator of `_protect_formulas_and_notations`: each protected
original, in protection order, receives the next counter value; the
mapping is returned in insertion order. -/
def protAlloc (originals : List Str) : List (Str × Str) :=
  originals.enum.map (fun p => (protTok p.1, p.2))

-- ### `TranslationService.translate` (size logic, chunking, validation/retry)
--
-- The protection pass itself (`_protect_formulas_and_notations`, a few
-- hundred regex substitutions) is not the subject of any claim beyond
-- its token allocator, which is modelled by `protAlloc` above; the
-- embedded `translate` therefore receives the already-protected text
-- and the placeholder table as inputs.  The chat-completions API is an
-- oracle `ChatCall → Except Str Str`; the chemical-formula
-- normalization pass (`_normalize_chemical_formulas`, called at the end
-- of `_restore_formulas_and_notations`) is abstracted as a parameter
-- `normChem`, which none of the claims under study depends on.

/-- One request to the chat-completions endpoint (system prompt, user
text, sampling temperature). -/
structure ChatCall where
  sys : Str
  user : Str
  temp : ℚ
deriving DecidableEq

/-- Python `str.split(sep)` for a single-character separator (keeps
empty fields). -/
def splitOnChar (sep : Char) : Str → List Str
  | [] => [[]]
  | c :: rest =>
    if c = sep then [] :: splitOnChar sep rest
    else
      match splitOnChar sep rest with
      | [] => [[c]]
      | p :: ps => (c :: p) :: ps

/-- Python `str.isdigit()` (ASCII digits; empty string is false). -/
def pyIsdigit (s : Str) : Bool := !s.isEmpty && s.all Char.isDigit

/-- The sort key of `_restore_formulas_and_notations`:
`int(x[0].split('_')[1]) if len(...) > 1 and ....isdigit() else 0`.
For tokens of the shape `__PROTECTED_N__` the field at index 1 is the
empty string (the token starts with two underscores), so the key is
always `0` and the "descending" sort is the identity permutation. -/
def protSortKey (tok : Str) : Nat :=
  let parts := splitOnChar '_' tok
  if h : parts.length > 1 then
    if pyIsdigit (parts.get ⟨1, h⟩) then digitsVal (parts.get ⟨1, h⟩) else 0
  else 0

/-- Stable insertion by descending key (Python `sorted(..., reverse=True)`
keeps equal keys in original order). -/
def insDescK (m : Str × Str) : List (Str × Str) → List (Str × Str)
  | [] => [m]
  | x :: xs => if protSortKey m.1 ≤ protSortKey x.1 then x :: insDescK m xs else m :: x :: xs

/-- `sorted(protected_items.items(), key=..., reverse=True)` (stable). -/
def sortProtDesc (items : List (Str × Str)) : List (Str × Str) :=
  items.foldl (fun acc m => insDescK m acc) []

/-- `TranslationService._restore_formulas_and_notations`: replace each
placeholder that is present, in sorted order, then normalize chemical
formulas (abstracted as `normChem`). -/
def restoreProt (normChem : Str → Str) (text : Str) (items : List (Str × Str)) : Str :=
  if items = [] then text
  else
    normChem ((sortProtDesc items).foldl
      (fun acc kv => if containsStr acc kv.1 then replaceAll kv.1 kv.2 acc else acc) text)

/-- `estimate_tokens`: `len(text) // 3`. -/
def estimateTokens (s : Str) : Nat := s.length / 3

/-- The request budget `max_allowed_tokens = 25000`. -/
def maxAllowedTokens : Nat := 25000

/-- Source languages accepted by the service. -/
inductive SrcLang where
  | ru
  | ar
  | zh
deriving DecidableEq

/-- `lang_names`. -/
def langName : SrcLang → Str
  | .ru => strOf "Russian"
  | .ar => strOf "Arabic"
  | .zh => strOf "Chinese"

/-- Translation model kinds. -/
inductive ModelKind where
  | general
  | engineering
  | academic
  | scientific
deriving DecidableEq

/-- The literal name of each model kind as interpolated into the prompt. -/
def modelKindStr : ModelKind → Str
  | .general => strOf "general"
  | .engineering => strOf "engineering"
  | .academic => strOf "academic"
  | .scientific => strOf "scientific"

/-- `model_instructions`. -/
def modelInstructions : ModelKind → Str
  | .general => strOf "Translate naturally and accurately, maintaining the original tone and style."
  | .engineering => strOf "Translate technical and engineering terminology precisely. Maintain technical accuracy and use appropriate engineering terminology. CRITICAL: Do NOT translate mathematical formulas, equations, variable names (Isp, g0, m0, mf, Δv, etc.), technical abbreviations (LEO, GTO, TLI, TMI, GSO, IMU, RCS, etc.), fuel combinations (RP-1/LOX, LH2/LOX, CH4/LOX, etc.), or numerical values with units (9.3-9.5 km/s, 285-300 s, etc.). Keep all formulas, equations, and technical notation exactly as they appear in the original text."
  | .academic => strOf "Translate academic texts with precision. Maintain formal academic style, preserve citations and references if present. CRITICAL: Do NOT translate mathematical formulas, equations, variable names, or technical notation. Keep all formulas and equations exactly as they appear in the original text."
  | .scientific => strOf "Translate scientific texts with utmost precision. Maintain scientific terminology, preserve formulas and technical notation exactly. CRITICAL: NEVER translate mathematical formulas, equations, variable names (like Δv, Isp, g0, m0, mf), mathematical symbols, technical abbreviations, or numerical values with units. Keep all formulas, equations, and technical notation exactly as they appear in the original text."

/-- Python `str.upper()` (ASCII). -/
def pyUpper (s : Str) : Str := s.map Char.toUpper

/-- `protection_instructions` (empty when nothing is protected). -/
def protInstr (n : Nat) : Str :=
  if n = 0 then []
  else
    strOf "\n\n⚠️ CRITICAL: " ++ natDigits n
      ++ strOf " protected placeholders (__PROTECTED_0__ to __PROTECTED_" ++ natDigits (n - 1)
      ++ strOf "__) MUST be preserved EXACTLY. NEVER translate or modify them. All "
      ++ natDigits n ++ strOf " must appear in translation.\n"

/-- The `system_prompt` f-string of `TranslationService.translate`. -/
def buildSystemPrompt (mk : ModelKind) (src : SrcLang) (target : Str) (protCount : Nat)
    (glossaryText : Str) : Str :=
  strOf "You are a professional translator specializing in " ++ modelKindStr mk
    ++ strOf " translation. Translate the following text from " ++ langName src
    ++ strOf " to " ++ pyUpper target ++ strOf ". " ++ modelInstructions mk
    ++ strOf " Maintain the original formatting, paragraph structure, and line breaks. Do not add any explanations, comments, or notes - provide only the translation."
    ++ protInstr protCount ++ glossaryText

/-- The glossary text for a given `max_terms` request: `"\n\n" + summary`
when a glossary manager is present and returns a non-empty summary. -/
def glossaryTextAt (gm : Option (Nat → Option Str)) (maxTerms : Nat) : Str :=
  match gm with
  | none => []
  | some g =>
    match g maxTerms with
    | some s => strOf "\n\n" ++ s
    | none => []

/-- Python `text.split('\n\n')` (paragraph split). -/
def splitParas : Str → List Str
  | [] => [[]]
  | '\n' :: '\n' :: rest => [] :: splitParas rest
  | c :: rest =>
    match splitParas rest with
    | [] => [[c]]
    | p :: ps => (c :: p) :: ps

/-- `'\n\n'.join(parts)`. -/
def joinDD : List Str → Str
  | [] => []
  | [p] => p
  | p :: ps => p ++ strOf "\n\n" ++ joinDD ps

/-- `preserved_count`: how many placeholder keys occur in the output. -/
def preservedCount (items : List (Str × Str)) (out : Str) : Nat :=
  (items.filter (fun kv => containsStr out kv.1)).length

/-- `TranslationService._translate_chunk`: one model call at temperature
0.3; a failed call falls back to the untranslated chunk text. -/
def translateChunk (oracle : ChatCall → Except Str Str) (sys chunk : Str) :
    Str × List ChatCall :=
  match oracle (ChatCall.mk sys chunk (3/10)) with
  | .ok r => (pyStrip r, [ChatCall.mk sys chunk (3/10)])
  | .error _ => (chunk, [ChatCall.mk sys chunk (3/10)])

/-- State of the paragraph-packing loop: pending paragraphs of the
current chunk, its estimated size, translated parts, call trace. -/
structure ChunkState where
  current : List Str
  size : Nat
  parts : List Str
  trace : List ChatCall

/-- One step of the chunk loop of `TranslationService.translate`. -/
def chunkStep (oracle : ChatCall → Except Str Str) (sys : Str) (st : ChunkState)
    (para : Str) : ChunkState :=
  let ps := estimateTokens para
  if st.size + ps > maxAllowedTokens ∧ st.current ≠ [] then
    let chunkText := joinDD st.current
    let r := translateChunk oracle sys chunkText
    ⟨[para], estimateTokens sys + ps, st.parts ++ [r.1], st.trace ++ r.2⟩
  else
    ⟨st.current ++ [para], st.size + ps, st.parts, st.trace⟩

/-- The whole chunked-translation path (split on paragraph boundaries,
pack greedily under the budget, translate each chunk, join in order). -/
def translateChunked (oracle : ChatCall → Except Str Str) (normChem : Str → Str)
    (sys text : Str) (prot : List (Str × Str)) : Str × List ChatCall :=
  let paras := splitParas text
  let st0 : ChunkState := ⟨[], estimateTokens sys, [], []⟩
  let st := paras.foldl (chunkStep oracle sys) st0
  let st2 :=
    if st.current ≠ [] then
      let chunkText := joinDD st.current
      let r := translateChunk oracle sys chunkText
      { st with parts := st.parts ++ [r.1], trace := st.trace ++ r.2 }
    else st
  (restoreProt normChem (joinDD st2.parts) prot, st2.trace)

/-- The strict retry prompt of the total-placeholder-loss path. -/
def strictPrompt (sys : Str) : Str :=
  sys ++ strOf "\n\n" ++ List.replicate 80 '=' ++ strOf "\n"
    ++ strOf "⚠️ ПРЕДЫДУЩАЯ ПОПЫТКА ПЕРЕВОДА ПРОВАЛИЛАСЬ - ВСЕ ПЛЕЙСХОЛДЕРЫ БЫЛИ ПОТЕРЯНЫ!\n"
    ++ strOf "В ЭТОМ ПЕРЕВОДЕ ВЫ ОБЯЗАНЫ СОХРАНИТЬ ВСЕ ПЛЕЙСХОЛДЕРЫ БЕЗ ИСКЛЮЧЕНИЯ!\n"
    ++ List.replicate 80 '='

/-- The single-shot path of `TranslationService.translate` (lines
248-316): one call at temperature 0.3, placeholder validation, one
strict retry at temperature 0.1 on total loss, restoration, and the
final empty-answer check.  API failures surface as `.error` (the outer
429 fallback of the source is outside the claims under study). -/
def translateSingleShot (oracle : ChatCall → Except Str Str) (normChem : Str → Str)
    (sys text : Str) (prot : List (Str × Str)) : Except Str Str × List ChatCall :=
  let c1 := ChatCall.mk sys text (3/10)
  match oracle c1 with
  | .error e => (.error e, [c1])
  | .ok r1 =>
    let t1 := pyStrip r1
    if prot ≠ [] ∧ preservedCount prot t1 = 0 then
      let c2 := ChatCall.mk (strictPrompt sys) text (1/10)
      match oracle c2 with
      | .error e => (.error e, [c1, c2])
      | .ok r2 =>
        let t2 := pyStrip r2
        let restored := restoreProt normChem t2 prot
        if restored = [] then (.error (strOf "OpenAI вернул пустой ответ"), [c1, c2])
        else (.ok restored, [c1, c2])
    else
      let restored := restoreProt normChem t1 prot
      if restored = [] then (.error (strOf "OpenAI вернул пустой ответ"), [c1])
      else (.ok restored, [c1])

/-- The system prompt of the first attempt (50 glossary terms). -/
def initialSys (gm : Option (Nat → Option Str)) (mk : ModelKind) (src : SrcLang)
    (target : Str) (prot : List (Str × Str)) : Str :=
  buildSystemPrompt mk src target prot.length (glossaryTextAt gm 50)

/-- The system prompt after the over-budget glossary shrink (30 terms);
when the original glossary text was empty the prompt is not rebuilt. -/
def shrunkSys (gm : Option (Nat → Option Str)) (mk : ModelKind) (src : SrcLang)
    (target : Str) (prot : List (Str × Str)) : Str :=
  if glossaryTextAt gm 50 ≠ [] then
    buildSystemPrompt mk src target prot.length
      (match gm with
       | some _ => glossaryTextAt gm 30
       | none => glossaryTextAt gm 50)
  else initialSys gm mk src target prot

/-- `TranslationService.translate` after protection: build the prompt
with a 50-term glossary, shrink the glossary to 30 terms if the request
is over budget, then either chunk (still over budget) or go single
shot. -/
def translateService (gm : Option (Nat → Option Str)) (oracle : ChatCall → Except Str Str)
    (normChem : Str → Str) (mk : ModelKind) (src : SrcLang) (target : Str)
    (text : Str) (prot : List (Str × Str)) : Except Str Str × List ChatCall :=
  let sys1 := initialSys gm mk src target prot
  if estimateTokens sys1 + estimateTokens text > maxAllowedTokens then
    let sys2 := shrunkSys gm mk src target prot
    if estimateTokens sys2 + estimateTokens text > maxAllowedTokens then
      let r := translateChunked oracle normChem sys2 text prot
      (.ok r.1, r.2)
    else
      translateSingleShot oracle normChem sys2 text prot
  else
    translateSingleShot oracle normChem sys1 text prot

/-- Specification-side chunk packing (the same greedy paragraph packing
as the chunk loop, but producing the list of chunks): used to state what
the chunked path translates. -/
def packStep (sysEst : Nat) (st : List (List Str) × List Str × Nat) (para : Str) :
    List (List Str) × List Str × Nat :=
  let ps := estimateTokens para
  if st.2.2 + ps > maxAllowedTokens ∧ st.2.1 ≠ [] then
    (st.1 ++ [st.2.1], [para], sysEst + ps)
  else
    (st.1, st.2.1 ++ [para], st.2.2 + ps)

/-- The chunk texts (paragraph groups) produced by the packing loop. -/
def packChunks (sys text : Str) : List (List Str) :=
  let r := (splitParas text).foldl (packStep (estimateTokens sys)) ([], [], estimateTokens sys)
  if r.2.1 ≠ [] then r.1 ++ [r.2.1] else r.1

/-- Concrete model oracle used to exhibit the empty-retry behaviour of
the single-shot path: the first call (system prompt `"sys"`) answers
placeholder-free prose, the strict retry (whose system prompt differs)
an empty completion. -/
def c2Oracle : ChatCall → Except Str Str :=
  fun c => if c.sys = strOf "sys" then .ok (strOf "hello") else .ok []

/-- Concrete model oracle whose every completion is placeholder-free
prose (used to exhibit the absence of per-chunk validation). -/
def c3Oracle : ChatCall → Except Str Str := fun _ => .ok (strOf "hello")

/-- Concrete model oracle whose strict retry answers non-empty
placeholder-free prose (used to witness the retry characterization). -/
def c2WitnessOracle : ChatCall → Except Str Str :=
  fun c => if c.sys = strOf "sys" then .ok (strOf "hello") else .ok (strOf "world")

-- ### `FormulaRecognizer.recognize` (retry / backoff / rate limiting)

/-- The `RecognizedFormula` dataclass of `formula_recognizer.py`. -/
structure RecognizedFormula where
  latex : Option Str
  latex_simplified : Option Str
  mathml : Option Str
  text : Option Str
  confidence : Option ℚ
  is_graph : Bool
deriving DecidableEq

/-- Outcome of one request attempt, as observed by the retry loop: a
successful 200 response (already parsed by `_parse_response`), a non-200
HTTP status (with the integer `Retry-After` header when the server sent
one), a timeout, or another exception. -/
inductive MathpixAttempt where
  | ok (r : RecognizedFormula)
  | httpStatus (code : Nat) (retryAfter : Option Nat)
  | timeout
  | exn

/-- Python `int()` applied to a float: truncation toward zero. -/
def pyTruncQ (q : ℚ) : ℚ := if 0 ≤ q then (⌊q⌋ : ℚ) else (⌈q⌉ : ℚ)

/-- The retry loop of `FormulaRecognizer.recognize`, one iteration per
attempt: returns the result, the sleep durations in order, and the
number of attempts performed.  Structural recursion on the number of
remaining iterations (`attempt` is the current 0-based index). -/
def recognizeAux (outcomes : Nat → MathpixAttempt) (maxRetries : Nat) (backoff : ℚ) :
    Nat → Nat → Option RecognizedFormula × List ℚ × Nat
  | 0, attempt => (none, [], attempt)
  | remaining + 1, attempt =>
    match outcomes attempt with
    | .ok r => (some r, [], attempt + 1)
    | .httpStatus code ra =>
      if code = 429 then
        let w : ℚ :=
          match ra with
          | some n => (n : ℚ)
          | none => pyTruncQ (backoff * 2 ^ attempt)
        let rest := recognizeAux outcomes maxRetries backoff remaining (attempt + 1)
        (rest.1, w :: rest.2.1, rest.2.2)
      else
        if attempt < maxRetries - 1 then
          let rest := recognizeAux outcomes maxRetries backoff remaining (attempt + 1)
          (rest.1, (backoff * 2 ^ attempt) :: rest.2.1, rest.2.2)
        else (none, [], attempt + 1)
    | .timeout =>
      if attempt < maxRetries - 1 then
        let rest := recognizeAux outcomes maxRetries backoff remaining (attempt + 1)
        (rest.1, (backoff * 2 ^ attempt) :: rest.2.1, rest.2.2)
      else (none, [], attempt + 1)
    | .exn =>
      if attempt < maxRetries - 1 then
        let rest := recognizeAux outcomes maxRetries backoff remaining (attempt + 1)
        (rest.1, (backoff * 2 ^ attempt) :: rest.2.1, rest.2.2)
      else (none, [], attempt + 1)

/-- `FormulaRecognizer.recognize`: unavailable clients return `None`
without any request; otherwise the loop runs `range(max_retries)`. -/
def recognize (available : Bool) (outcomes : Nat → MathpixAttempt) (maxRetries : Nat)
    (backoff : ℚ) : Option RecognizedFormula × List ℚ × Nat :=
  if available then recognizeAux outcomes maxRetries backoff maxRetries 0
  else (none, [], 0)

/-- Whether an attempt outcome is a successful 200 response. -/
def attemptOk : MathpixAttempt → Bool
  | .ok _ => true
  | _ => false

/-- Modelled from the amended claim: the expected sleep schedule of the
retry loop — on 429 the server-provided `Retry-After` when present and
otherwise `int(backoff * 2^attempt)` (truncated); on any other failure
`backoff * 2^attempt`, and only between attempts (not after the last
non-429 failure); nothing after a success. -/
def specWaits (outcomes : Nat → MathpixAttempt) (maxRetries : Nat) (backoff : ℚ) :
    Nat → Nat → List ℚ
  | 0, _ => []
  | remaining + 1, attempt =>
    match outcomes attempt with
    | .ok _ => []
    | .httpStatus code ra =>
      if code = 429 then
        (match ra with
         | some n => (n : ℚ)
         | none => pyTruncQ (backoff * 2 ^ attempt))
          :: specWaits outcomes maxRetries backoff remaining (attempt + 1)
      else if attempt < maxRetries - 1 then
        (backoff * 2 ^ attempt) :: specWaits outcomes maxRetries backoff remaining (attempt + 1)
      else []
    | .timeout =>
      if attempt < maxRetries - 1 then
        (backoff * 2 ^ attempt) :: specWaits outcomes maxRetries backoff remaining (attempt + 1)
      else []
    | .exn =>
      if attempt < maxRetries - 1 then
        (backoff * 2 ^ attempt) :: specWaits outcomes maxRetries backoff remaining (attempt + 1)
      else []

-- ### `DocumentBuilder` formula insertion (PNG / OMML modes)

/-- What one formula insertion contributes to the document. -/
inductive InsertedArtifact where
  | ommlArt (omml : Str)
  | imageArt (latex : Str)
  | textFallback (truncated : Str)
deriving DecidableEq

/-- `DocumentBuilder._insert_formula_as_image`: prefer the recognized
LaTeX when truthy, render via the LaTeX renderer when one is configured
and it returns a buffer, else fall back to bracketed literal text.  The
renderer is an oracle `Str → Option Unit` (None models a failed
render). -/
def insertFormulaAsImage (renderer : Option (Str → Option Unit)) (formulaText : Str)
    (recognized : Option RecognizedFormula) : InsertedArtifact :=
  let latex :=
    match recognized with
    | some r =>
      match r.latex with
      | some l => if l ≠ [] then l else formulaText
      | none => formulaText
    | none => formulaText
  match renderer with
  | some render =>
    match render latex with
    | some _ => InsertedArtifact.imageArt latex
    | none => InsertedArtifact.textFallback (slice formulaText 0 50)
  | none => InsertedArtifact.textFallback (slice formulaText 0 50)

/-- `DocumentBuilder._mathml_to_omml`: always raises
`NotImplementedError` in this code base. -/
def mathmlToOmml (_mathml : Str) : Except Str Str :=
  .error (strOf "MathML → OMML конвертация требует дополнительной реализации")

/-- `DocumentBuilder._insert_formula_as_omml`: fall back to the image
path when lxml is missing, when no (truthy) MathML is available, or when
the MathML → OMML conversion raises; the exception is caught, so the
build never aborts on a formula. -/
def insertFormulaAsOmml (lxmlAvailable : Bool) (renderer : Option (Str → Option Unit))
    (formulaText : Str) (recognized : Option RecognizedFormula) : InsertedArtifact :=
  if ¬ lxmlAvailable then insertFormulaAsImage renderer formulaText recognized
  else
    match recognized with
    | none => insertFormulaAsImage renderer formulaText recognized
    | some r =>
      match r.mathml with
      | none => insertFormulaAsImage renderer formulaText recognized
      | some m =>
        if m = [] then insertFormulaAsImage renderer formulaText recognized
        else
          match mathmlToOmml m with
          | .ok o => InsertedArtifact.ommlArt o
          | .error _ => insertFormulaAsImage renderer formulaText recognized

-- ### `TranslationPipeline.process`

/-- The `ExtractedContent` dataclass of `pdf_extractor.py`. -/
structure ExtractedContent where
  text : Str
  page_images : List (Nat × Str)
  page_count : Nat
  metadata : List (Str × Str)

/-- The `PipelineResult` dataclass of `pipeline.py`. -/
structure PipelineResultM where
  output_file : Str
  extracted_content : ExtractedContent
  formulas_count : Nat
  recognized_formulas_count : Nat
  success : Bool
  error : Option Str

/-- The external stages of one pipeline run, as oracles: PDF extraction,
`DocumentBuilder.__init__`, recognizer availability, the per-formula
recognition call (indexed by formula index; `none` models a failed or
empty recognition), the text translator, and the final document build. -/
structure PipelineDeps where
  extractPdf : Except Str ExtractedContent
  builderInit : Except Str Unit
  recognizerAvailable : Bool
  recognizeFile : Nat → Option RecognizedFormula
  translateText : Str → Except Str Str
  buildDoc : Str → List (Nat × Str) → Except Str Str

/-- `TranslationPipeline._recognize_formulas`: for each formula (when
any page image exists) call the recognizer on the first page image and
keep the successful results. -/
def recognizeFormulas (deps : PipelineDeps) (formulas : List (Nat × Str))
    (pageImages : List (Nat × Str)) : List (Nat × RecognizedFormula) :=
  formulas.foldl
    (fun acc kv =>
      if pageImages ≠ [] then
        match deps.recognizeFile kv.1 with
        | some r => acc ++ [(kv.1, r)]
        | none => acc
      else acc) []

/-- The failure result built by the `except` handler of
`TranslationPipeline.process`: `PipelineResult(Path(), ExtractedContent("",
{}, 0, {}), 0, 0, success=False, error=str(e))`. -/
def pipelineFailure (e : Str) : PipelineResultM :=
  ⟨[], ⟨[], [], 0, []⟩, 0, 0, false, some e⟩

/-- `TranslationPipeline.process`: the staged pipeline under a catch-all
`except Exception` that converts any stage failure into a structured
failure result.  Stage 2 is the real `FormulaExtractor.extract`
embedding. -/
def pipelineProcess (deps : PipelineDeps) (useMathpix : Bool) : PipelineResultM :=
  match deps.extractPdf with
  | .error e => pipelineFailure e
  | .ok content =>
    let er := pyExtract content.text
    match deps.builderInit with
    | .error e => pipelineFailure e
    | .ok _ =>
      let recognized :=
        if useMathpix ∧ deps.recognizerAvailable then
          recognizeFormulas deps er.2 content.page_images
        else []
      match deps.translateText er.1 with
      | .error e => pipelineFailure e
      | .ok translated =>
        match deps.buildDoc translated content.page_images with
        | .error e => pipelineFailure e
        | .ok path =>
          ⟨path, content, er.2.length, recognized.length, true, none⟩

/-- A concrete dependency bundle in which every pipeline stage succeeds
(used to witness the success case of `pipelineProcess`). -/
def c9Deps : PipelineDeps where
  extractPdf := .ok ⟨[], [], 0, []⟩
  builderInit := .ok ()
  recognizerAvailable := false
  recognizeFile := fun _ => none
  translateText := fun _ => .ok (strOf "t")
  buildDoc := fun _ _ => .ok (strOf "out.docx")

-- ### `TextTranslator.translate`

/-- The `TranslationConfig` dataclass of `text_translator.py`. -/
structure TranslationConfigM where
  source_lang : SrcLang
  target_lang : Str
  model : ModelKind
  use_glossary : Bool
  temperature : ℚ

/-- The per-kind instruction strings of `TextTranslator._build_prompt`. -/
def ttInstruction : ModelKind → Str
  | .general => strOf "Переведи текст точно и естественно."
  | .engineering => strOf "Переведи текст, сохраняя техническую терминологию и точность."
  | .academic => strOf "Переведи текст в академическом стиле, сохраняя формальность."
  | .scientific => strOf "Переведи текст, сохраняя научную точность и терминологию."

/-- The language code of a source language (the `Literal` value). -/
def srcCode : SrcLang → Str
  | .ru => strOf "ru"
  | .ar => strOf "ar"
  | .zh => strOf "zh"

/-- The `lang_names` lookup of `_build_prompt` with its fallback to the
raw code. -/
def ttLangName (code : Str) : Str :=
  if code = strOf "ru" then strOf "русский"
  else if code = strOf "ar" then strOf "арабский"
  else if code = strOf "zh" then strOf "китайский"
  else if code = strOf "en" then strOf "английский"
  else code

/-- The glossary block of `_build_prompt` (empty on no manager, a failed
lookup, or an empty term list). -/
def ttGlossaryBlock (glossFind : Option (Option Str)) : Str :=
  match glossFind with
  | none => []
  | some none => []
  | some (some terms) =>
    if terms = [] then []
    else strOf "\n\nВажно: Используй следующие термины из глоссария:\n" ++ terms

/-- `TextTranslator._build_prompt`. -/
def ttBuildPrompt (glossFind : Option (Option Str)) (text : Str) (cfg : TranslationConfigM) :
    Str :=
  ttGlossaryBlock (if cfg.use_glossary then glossFind else none) |>
    fun glossaryTerms =>
      strOf "Переведи следующий текст с " ++ ttLangName (srcCode cfg.source_lang)
        ++ strOf " на " ++ ttLangName cfg.target_lang ++ strOf ".\n\n"
        ++ ttInstruction cfg.model
        ++ strOf "\n\nВАЖНО:\n- НЕ изменяй маркеры формул вида <<<FORMULA_N>>> - оставь их как есть\n- Сохрани структуру текста (абзацы, переносы строк)\n- Сохрани все числа, даты, названия в оригинальном формате\n"
        ++ glossaryTerms ++ strOf "\n\nТекст для перевода:\n\n" ++ text

/-- `TextTranslator._get_system_message`. -/
def ttSystemMessage : Str :=
  strOf "Ты профессиональный переводчик технических и научных текстов.\nТвоя задача - точно переводить текст, сохраняя:\n- Техническую терминологию\n- Структуру документа\n- Маркеры формул (<<<FORMULA_N>>>)\n- Форматирование\n\nНЕ изменяй маркеры формул и не переводи их содержимое."

/-- `TextTranslator.translate`: blank input is returned unchanged with
no model call; otherwise one chat call at the configured temperature.
The second component counts the model invocations. -/
def textTranslate (glossFind : Option (Option Str)) (oracle : ChatCall → Except Str Str)
    (text : Str) (cfg : TranslationConfigM) : Except Str Str × Nat :=
  if pyStrip text = [] then (.ok text, 0)
  else
    let prompt := ttBuildPrompt glossFind text cfg
    match oracle (ChatCall.mk ttSystemMessage prompt cfg.temperature) with
    | .ok r => (.ok (pyStrip r), 1)
    | .error e => (.error e, 1)

-- ### Theorems

-- ### Basic lemmas about the string primitives

theorem slice_length_le (t : Str) (s e : Nat) : (slice t s e).length ≤ t.length := by
  simp only [slice, List.length_take, List.length_drop]
  omega

theorem slice_infix (t : Str) (s e : Nat) : slice t s e <:+: t := by
  have h1 : slice t s e <+: t.drop s := List.take_prefix _ _
  exact h1.isInfix.trans (List.drop_suffix s t).isInfix

theorem natDigitsGo_irrel (n : Nat) : ∀ f₁ f₂ acc, n < f₁ → n < f₂ →
    natDigitsGo f₁ n acc = natDigitsGo f₂ n acc := by
  induction n using Nat.strong_induction_on with
  | _ n ih =>
    intro f₁ f₂ acc h₁ h₂
    match f₁, f₂ with
    | f₁ + 1, f₂ + 1 =>
      simp only [natDigitsGo]
      by_cases hn : n < 10
      · simp [hn]
      · simp only [if_neg hn]
        have hd : n / 10 < n := Nat.div_lt_self (by omega) (by omega)
        exact ih (n / 10) hd f₁ f₂ _ (by omega) (by omega)

theorem natDigitsGo_acc (n : Nat) : ∀ f acc, n < f →
    natDigitsGo f n acc = natDigitsGo f n [] ++ acc := by
  induction n using Nat.strong_induction_on with
  | _ n ih =>
    intro f acc h
    match f with
    | f + 1 =>
      simp only [natDigitsGo]
      by_cases hn : n < 10
      · simp [hn]
      · simp only [if_neg hn]
        have hd : n / 10 < n := Nat.div_lt_self (by omega) (by omega)
        rw [ih (n / 10) hd f _ (by omega), ih (n / 10) hd f [digitChar (n % 10)] (by omega)]
        simp

theorem natDigits_step (n : Nat) (h : ¬ n < 10) :
    natDigits n = natDigits (n / 10) ++ [digitChar (n % 10)] := by
  have hd : n / 10 < n := Nat.div_lt_self (by omega) (by omega)
  have h1 : natDigits n = natDigitsGo n (n / 10) (digitChar (n % 10) :: []) := by
    have h2 : natDigitsGo (n + 1) n []
        = if n < 10 then digitChar n :: [] else natDigitsGo n (n / 10) (digitChar (n % 10) :: []) := rfl
    rw [natDigits, h2, if_neg h]
  rw [h1, natDigitsGo_acc (n / 10) n _ hd,
    natDigitsGo_irrel (n / 10) n (n / 10 + 1) [] hd (by omega)]
  rfl

theorem natDigits_small (n : Nat) (h : n < 10) : natDigits n = [digitChar n] := by
  simp [natDigits, natDigitsGo, h]

theorem digitChar_isDigit (d : Nat) (h : d < 10) : (digitChar d).isDigit = true := by
  interval_cases d <;> decide

theorem natDigits_all_digits (n : Nat) : ∀ c ∈ natDigits n, c.isDigit = true := by
  induction n using Nat.strong_induction_on with
  | _ n ih =>
    by_cases hn : n < 10
    · rw [natDigits_small n hn]
      intro c hc
      simp only [List.mem_singleton] at hc
      subst hc; exact digitChar_isDigit n hn
    · rw [natDigits_step n hn]
      intro c hc
      rcases List.mem_append.mp hc with h | h
      · exact ih (n / 10) (Nat.div_lt_self (by omega) (by omega)) c h
      · simp only [List.mem_singleton] at h
        subst h; exact digitChar_isDigit _ (Nat.mod_lt _ (by omega))

theorem digitsVal_foldl (t : Str) : ∀ a, t.foldl (fun a c => a * 10 + (c.toNat - 48)) a
    = a * 10 ^ t.length + digitsVal t := by
  induction t with
  | nil => intro a; simp [digitsVal]
  | cons c t ih =>
    intro a
    simp only [List.foldl_cons, digitsVal, List.length_cons]
    rw [ih (a * 10 + (c.toNat - 48)), ih (0 * 10 + (c.toNat - 48))]
    ring

theorem digitChar_toNat (d : Nat) (h : d < 10) : (digitChar d).toNat = 48 + d := by
  interval_cases d <;> decide

theorem digitsVal_natDigits (n : Nat) : digitsVal (natDigits n) = n := by
  induction n using Nat.strong_induction_on with
  | _ n ih =>
    by_cases hn : n < 10
    · rw [natDigits_small n hn]
      simp [digitsVal, digitChar_toNat n hn]
    · rw [natDigits_step n hn]
      simp only [digitsVal, List.foldl_append, List.foldl_cons, List.foldl_nil]
      have h1 := ih (n / 10) (Nat.div_lt_self (by omega) (by omega))
      simp only [digitsVal] at h1
      rw [h1, digitChar_toNat _ (Nat.mod_lt _ (by omega))]
      omega

theorem natDigits_injective {m n : Nat} (h : natDigits m = natDigits n) : m = n := by
  have := digitsVal_natDigits m
  rw [h, digitsVal_natDigits] at this
  omega

theorem natDigits_ne_nil (n : Nat) : natDigits n ≠ [] := by
  by_cases hn : n < 10
  · rw [natDigits_small n hn]; simp
  · rw [natDigits_step n hn]; simp

-- ### Occurrence lemmas

theorem marker_eq (i : Nat) : marker i = markerPre ++ (natDigits i ++ markerSuf) := by
  simp [marker, markerPre, markerSuf]

theorem occursAt_iff (pat t : Str) (p : Nat) : occursAt pat t p ↔ pat <+: t.drop p :=
  Iff.rfl

theorem infix_iff_occurs (pat t : Str) : pat <:+: t ↔ ∃ p, occursAt pat t p := by
  constructor
  · rintro ⟨u, v, rfl⟩
    exact ⟨u.length, by simp [occursAt, List.drop_left, List.append_assoc]⟩
  · rintro ⟨p, hp⟩
    rcases hp with ⟨v, hv⟩
    exact ⟨t.take p, v, by rw [List.append_assoc, hv, List.take_append_drop]⟩

theorem Clean.no_occ {t : Str} (h : Clean t) (i : Nat) (p : Nat) :
    ¬ occursAt (marker i) t p := by
  intro hocc
  apply h
  rw [infix_iff_occurs]
  refine ⟨p, ?_⟩
  calc markerPre <+: marker i := by rw [marker_eq]; exact ⟨_, rfl⟩
    _ <+: t.drop p := hocc

theorem Clean.of_infix {s t : Str} (h : Clean t) (hst : s <:+: t) : Clean s :=
  fun hc => h (hc.trans hst)

theorem occursAt_shift (pat a b : Str) (p : Nat) (hp : a.length ≤ p) :
    occursAt pat (a ++ b) p ↔ occursAt pat b (p - a.length) := by
  simp only [occursAt]
  rw [List.drop_append_eq_append_drop]
  have : a.drop p = [] := List.drop_eq_nil_of_le (by omega)
  rw [this, List.nil_append]

theorem occursAt_cons_succ (pat : Str) (c : Char) (t : Str) (p : Nat) :
    occursAt pat (c :: t) (p + 1) ↔ occursAt pat t p := by
  simp [occursAt]

-- ### `replaceAll` laws

theorem replaceAllGo_nil (needle repl : Str) (fuel : Nat) :
    replaceAllGo needle repl fuel [] = [] := by
  cases fuel <;> rfl

theorem replaceAllGo_cons (needle repl : Str) (fuel : Nat) (c : Char) (rest : Str) :
    replaceAllGo needle repl (fuel + 1) (c :: rest)
      = if needle ≠ [] ∧ needle.isPrefixOf (c :: rest) then
          repl ++ replaceAllGo needle repl fuel ((c :: rest).drop needle.length)
        else c :: replaceAllGo needle repl fuel rest := rfl

theorem replaceAllGo_skip (needle repl : Str) (hne : needle ≠ []) :
    ∀ (a b : Str) (fuel : Nat),
      (∀ p, p < a.length → ¬ occursAt needle (a ++ b) p) →
      replaceAllGo needle repl (a.length + fuel) (a ++ b)
        = a ++ replaceAllGo needle repl fuel b := by
  intro a
  induction a with
  | nil => intro b fuel _; simp
  | cons c a' ih =>
    intro b fuel hno
    have hlen : (c :: a').length + fuel = (a'.length + fuel) + 1 := by simp; omega
    rw [hlen, List.cons_append, replaceAllGo_cons]
    have hnot : ¬ (needle ≠ [] ∧ needle.isPrefixOf (c :: (a' ++ b))) := by
      rintro ⟨-, hpref⟩
      refine hno 0 (by simp) ?_
      simp only [occursAt, List.cons_append, List.drop_zero]
      exact List.isPrefixOf_iff_prefix.mp hpref
    rw [if_neg hnot, ih b fuel (fun p hp hocc => hno (p + 1) (by simp; omega)
      (by rw [List.cons_append, occursAt_cons_succ]; exact hocc))]
    simp

theorem replaceAllGo_none (needle repl : Str) (hne : needle ≠ []) (t : Str) (fuel : Nat)
    (hno : ∀ p, ¬ occursAt needle t p) :
    replaceAllGo needle repl (t.length + fuel) t = t := by
  have h := replaceAllGo_skip needle repl hne t [] fuel (by
    intro p hp hocc
    exact hno p (by rw [List.append_nil] at hocc; exact hocc))
  rw [List.append_nil] at h
  rw [h, replaceAllGo_nil, List.append_nil]

theorem replaceAllGo_hit (needle repl : Str) (hne : needle ≠ []) (z : Str) (fuel : Nat) :
    replaceAllGo needle repl (fuel + 1) (needle ++ z)
      = repl ++ replaceAllGo needle repl fuel z := by
  match needle, hne with
  | c :: nrest, _ =>
    rw [List.cons_append, replaceAllGo_cons]
    have hpos : ((c :: nrest) ≠ [] ∧ (c :: nrest).isPrefixOf (c :: (nrest ++ z))) := by
      refine ⟨by simp, ?_⟩
      rw [List.isPrefixOf_iff_prefix, ← List.cons_append]
      exact ⟨z, rfl⟩
    rw [if_pos hpos]
    congr 1
    rw [← List.cons_append, List.drop_left]

theorem replaceAll_unique (needle repl : Str) (hne : needle ≠ []) (w z : Str)
    (hw : ∀ p, p < w.length → ¬ occursAt needle (w ++ (needle ++ z)) p)
    (hz : ∀ p, ¬ occursAt needle z p) :
    replaceAll needle repl (w ++ (needle ++ z)) = w ++ (repl ++ z) := by
  have hlen : (w ++ (needle ++ z)).length = w.length + (needle.length + z.length) := by
    simp
  rw [replaceAll, hlen, replaceAllGo_skip needle repl hne w (needle ++ z) _ hw]
  congr 1
  have hn1 : ∃ m, needle.length = m + 1 := by
    cases needle with
    | nil => exact absurd rfl hne
    | cons c r => exact ⟨r.length, by simp⟩
  rcases hn1 with ⟨m, hm⟩
  rw [hm]
  have : m + 1 + z.length = (m + z.length) + 1 := by omega
  rw [this, replaceAllGo_hit needle repl hne z (m + z.length)]
  congr 1
  have : m + z.length = z.length + m := by omega
  rw [this, replaceAllGo_none needle repl hne z m hz]

-- ### Placeholder structure lemmas

theorem prefix_getElem? {u w : Str} (h : u <+: w) (idx : Nat) (hidx : idx < u.length) :
    w[idx]? = u[idx]? := by
  rcases h with ⟨v, rfl⟩
  exact List.getElem?_append_left hidx

theorem occursAt_getElem? {pat t : Str} {p : Nat} (h : occursAt pat t p) (idx : Nat)
    (hidx : idx < pat.length) : t[p + idx]? = pat[idx]? := by
  have h1 : (t.drop p)[idx]? = pat[idx]? := prefix_getElem? h idx hidx
  rw [List.getElem?_drop] at h1
  exact h1

theorem prefix_of_append_of_le {a b c : Str} (h : a <+: b ++ c) (hl : a.length ≤ b.length) :
    a <+: b := by
  rcases h with ⟨v, hv⟩
  have h1 : (b ++ c).take a.length = b.take a.length := List.take_append_of_le_length hl
  rw [← hv] at h1
  rw [List.take_left' rfl] at h1
  rw [h1]
  exact List.take_prefix _ _

theorem markerPre_length : markerPre.length = 11 := rfl

theorem marker_length (i : Nat) : (marker i).length = 14 + (natDigits i).length := by
  rw [marker_eq]
  simp [markerPre, markerSuf, strOf]
  omega

theorem marker_length_ge (i : Nat) : 15 ≤ (marker i).length := by
  rw [marker_length]
  have := natDigits_ne_nil i
  have : 1 ≤ (natDigits i).length := by
    cases h : natDigits i with
    | nil => exact absurd h (natDigits_ne_nil i)
    | cons c r => simp
  omega

theorem marker_getElem?_pre (i : Nat) (idx : Nat) (h : idx < 11) :
    (marker i)[idx]? = markerPre[idx]? := by
  rw [marker_eq]
  exact List.getElem?_append_left (by rw [markerPre_length]; exact h)

theorem marker_head_lt (i : Nat) (idx : Nat) (h : idx < 3) : (marker i)[idx]? = some '<' := by
  rw [marker_getElem?_pre i idx (by omega)]
  interval_cases idx <;> rfl

theorem marker_F (i : Nat) : (marker i)[3]? = some 'F' := by
  rw [marker_getElem?_pre i 3 (by omega)]
  rfl

theorem markerSuf_no_lt : ∀ k : Nat, ¬ markerSuf[k]? = some '<' := by
  intro k h
  rcases Nat.lt_or_ge k 3 with hk | hk
  · interval_cases k <;> simp_all <;> exact absurd h (by decide)
  · rw [List.getElem?_eq_none (by exact hk)] at h
    exact Option.noConfusion h

theorem markerPre_lt_pos : ∀ idx, idx < 11 → markerPre[idx]? = some '<' → idx < 3 := by decide

theorem marker_lt_char (j : Nat) (pos : Nat) (h : (marker j)[pos]? = some '<') : pos < 3 := by
  by_cases hp : pos < 11
  · exact markerPre_lt_pos pos hp (by rw [← marker_getElem?_pre j pos hp]; exact h)
  · exfalso
    rw [marker_eq] at h
    rw [List.getElem?_append_right (by rw [markerPre_length]; omega)] at h
    rw [markerPre_length] at h
    rcases Nat.lt_or_ge (pos - 11) (natDigits j).length with hd | hd
    · rw [List.getElem?_append_left hd] at h
      have hmem : '<' ∈ natDigits j := by
        rcases List.getElem?_eq_some.mp h with ⟨hlt, hget⟩
        rw [← hget]
        exact List.getElem_mem hlt
      have := natDigits_all_digits j '<' hmem
      simp at this
    · rw [List.getElem?_append_right hd] at h
      exact markerSuf_no_lt _ h

theorem markerPre_no_self_overlap :
    ∀ k, 1 ≤ k → k < 11 → ¬ (markerPre.drop k <+: markerPre) := by decide

/-- An occurrence of `marker i` cannot start strictly inside a clean
block that is followed by the placeholder prefix. -/
theorem no_cross_occ (s r : Str) (hs : Clean s) (i p : Nat) (hp : p < s.length) :
    ¬ occursAt (marker i) (s ++ (markerPre ++ r)) p := by
  intro h
  have hpre : markerPre <+: (s ++ (markerPre ++ r)).drop p := by
    refine List.IsPrefix.trans ?_ h
    rw [marker_eq]
    exact ⟨_, rfl⟩
  rw [List.drop_append_eq_append_drop, Nat.sub_eq_zero_of_le (Nat.le_of_lt hp),
    List.drop_zero] at hpre
  have hk : (s.drop p).length = s.length - p := List.length_drop p s
  rcases le_or_lt 11 (s.drop p).length with hge | hlt
  · have h1 : markerPre <+: s.drop p :=
      prefix_of_append_of_le hpre (by rw [markerPre_length]; exact hge)
    exact hs (h1.isInfix.trans (List.drop_suffix p s).isInfix)
  · rcases hpre with ⟨v, hv⟩
    have h2 : markerPre ++ r = markerPre.drop (s.drop p).length ++ v := by
      have h3 := congrArg (List.drop (s.drop p).length) hv
      rw [List.drop_left] at h3
      rw [List.drop_append_eq_append_drop,
        Nat.sub_eq_zero_of_le (by rw [markerPre_length]; omega), List.drop_zero] at h3
      exact h3.symm
    have h4 : markerPre.drop (s.drop p).length <+: markerPre ++ r := ⟨v, h2.symm⟩
    have h5 : markerPre.drop (s.drop p).length <+: markerPre :=
      prefix_of_append_of_le h4 (by rw [List.length_drop]; omega)
    exact markerPre_no_self_overlap (s.drop p).length (by omega) hlt h5

/-- Digit strings followed by a common non-digit separator: a prefix
relation between the assembled strings forces the digit parts equal. -/
theorem digits_prefix_eq : ∀ (di dj : Str) (s0 : Char) (u v : Str),
    (∀ c ∈ di, c.isDigit = true) → (∀ c ∈ dj, c.isDigit = true) → s0.isDigit = false →
    di ++ (s0 :: u) <+: dj ++ (s0 :: v) → di = dj := by
  intro di
  induction di with
  | nil =>
    intro dj s0 u v _ hdj hs0 hp
    cases dj with
    | nil => rfl
    | cons c' dj' =>
      exfalso
      rw [List.nil_append, List.cons_append, List.cons_prefix_cons] at hp
      have hd : c'.isDigit = true := hdj c' (by simp)
      rw [← hp.1] at hd
      rw [hd] at hs0
      exact absurd hs0 (by simp)
  | cons c di' ih =>
    intro dj s0 u v hdi hdj hs0 hp
    cases dj with
    | nil =>
      exfalso
      rw [List.cons_append, List.nil_append, List.cons_prefix_cons] at hp
      have hd : c.isDigit = true := hdi c (by simp)
      rw [hp.1] at hd
      rw [hd] at hs0
      exact absurd hs0 (by simp)
    | cons c' dj' =>
      rw [List.cons_append, List.cons_append, List.cons_prefix_cons] at hp
      have heq := hp.1
      have htail := ih dj' s0 u v (fun x hx => hdi x (by simp [hx]))
        (fun x hx => hdj x (by simp [hx])) hs0 hp.2
      rw [heq, htail]

/-- A placeholder that is a prefix of another placeholder (with any
continuation) has the same index. -/
theorem marker_prefix_inj (i j : Nat) (r : Str) (h : marker i <+: marker j ++ r) : i = j := by
  rw [marker_eq, marker_eq, List.append_assoc] at h
  rw [List.prefix_append_right_inj] at h
  have h1 : natDigits i ++ ('>' :: strOf ">>") <+: natDigits j ++ ('>' :: (strOf ">>" ++ r)) := by
    have e1 : natDigits i ++ markerSuf = natDigits i ++ ('>' :: strOf ">>") := rfl
    have e2 : (natDigits j ++ markerSuf) ++ r = natDigits j ++ ('>' :: (strOf ">>" ++ r)) := by
      rw [List.append_assoc]; rfl
    rw [e1] at h
    rw [e2] at h
    exact h
  have := digits_prefix_eq (natDigits i) (natDigits j) '>' (strOf ">>") (strOf ">>" ++ r)
    (natDigits_all_digits i) (natDigits_all_digits j) (by decide) h1
  exact natDigits_injective this

/-- Where `marker i` can occur in `marker j ++ r`: either at offset `0`
(forcing `i = j`) or past the end of `marker j`. -/
theorem occ_in_marker (i j : Nat) (r : Str) (q : Nat)
    (h : occursAt (marker i) (marker j ++ r) q) :
    (q = 0 ∧ i = j) ∨ (marker j).length ≤ q := by
  rcases le_or_lt (marker j).length q with hge | hlt
  · exact Or.inr hge
  rcases Nat.eq_zero_or_pos q with rfl | hq
  · refine Or.inl ⟨rfl, ?_⟩
    have h1 : marker i <+: marker j ++ r := by
      have := (occursAt_iff _ _ _).mp h
      rw [List.drop_zero] at this
      exact this
    exact marker_prefix_inj i j r h1
  · exfalso
    have hc0 : (marker j ++ r)[q + 0]? = some '<' := by
      rw [occursAt_getElem? h 0 (by have := marker_length_ge i; omega)]
      exact marker_head_lt i 0 (by omega)
    rw [Nat.add_zero] at hc0
    rw [List.getElem?_append_left hlt] at hc0
    have hq3 : q < 3 := marker_lt_char j q hc0
    have hcF : (marker j ++ r)[q + (3 - q)]? = some '<' := by
      rw [occursAt_getElem? h (3 - q) (by have := marker_length_ge i; omega)]
      exact marker_head_lt i (3 - q) (by omega)
    have hq3' : q + (3 - q) = 3 := by omega
    rw [hq3'] at hcF
    rw [List.getElem?_append_left (by have := marker_length_ge j; omega)] at hcF
    rw [marker_F j] at hcF
    simp at hcF

theorem marker_ne_nil (i : Nat) : marker i ≠ [] := by
  intro h
  have := marker_length_ge i
  rw [h] at this
  simp at this

theorem Marked.mono {lo₁ lo₂ : Nat} (hle : lo₁ ≤ lo₂) {W : Str} (hW : Marked lo₂ W) :
    Marked lo₁ W := by
  induction hW with
  | nil s h => exact Marked.nil s h
  | cons s j W h hj _ ih => exact Marked.cons s j W h (by omega) ih

theorem Marked.snoc {lo : Nat} {W : Str} (hW : Marked lo W) (j : Nat) (hj : lo ≤ j)
    {s : Str} (hs : Clean s) : Marked lo (W ++ (marker j ++ s)) := by
  induction hW with
  | nil s' h => exact Marked.cons s' j s h hj (Marked.nil s hs)
  | cons s' j' W' h hj' _ ih =>
    rw [List.append_assoc, List.append_assoc]
    refine Marked.cons s' j' _ h hj' ?_
    rw [← List.append_assoc] at ih
    rw [← List.append_assoc]
    exact ih

/-- No occurrence of `marker i` starts strictly inside a `Marked lo`
block whose indices all exceed `i`, when the block is followed by the
placeholder prefix. -/
theorem marked_no_occ (i lo : Nat) (hi : i < lo) {W : Str} (hW : Marked lo W) :
    ∀ (R : Str) (p : Nat), p < W.length → ¬ occursAt (marker i) (W ++ (markerPre ++ R)) p := by
  induction hW with
  | nil s h => exact fun R p hp => no_cross_occ s R h i p hp
  | cons s j W' h hj hW' ih =>
    intro R p hp hocc
    rw [List.append_assoc, List.append_assoc] at hocc
    have hsplit : marker j ++ (W' ++ (markerPre ++ R))
        = markerPre ++ (natDigits j ++ (markerSuf ++ (W' ++ (markerPre ++ R)))) := by
      rw [marker_eq]
      simp [List.append_assoc]
    rcases Nat.lt_or_ge p s.length with hps | hps
    · rw [hsplit] at hocc
      exact no_cross_occ s _ h i p hps hocc
    · have hshift := (occursAt_shift (marker i) s (marker j ++ (W' ++ (markerPre ++ R)))
        p hps).mp hocc
      rcases Nat.lt_or_ge (p - s.length) (marker j).length with hpm | hpm
      · rcases occ_in_marker i j _ _ hshift with ⟨-, rfl⟩ | hge
        · omega
        · omega
      · have hshift2 := (occursAt_shift (marker i) (marker j) (W' ++ (markerPre ++ R))
          (p - s.length) hpm).mp hshift
        have hplen : p - s.length - (marker j).length < W'.length := by
          simp only [List.length_append] at hp
          omega
        exact ih R _ hplen hshift2

/-- Restoring placeholder `i` in `W ++ marker i ++ Z`, where `W` only
carries higher-indexed placeholders and `Z` is clean, rewrites exactly
the one real occurrence. -/
theorem replace_marker (i lo : Nat) (hi : i < lo) {W : Str} (hW : Marked lo W)
    {Z : Str} (hZ : Clean Z) (f : Str) :
    replaceAll (marker i) f (W ++ (marker i ++ Z)) = W ++ (f ++ Z) := by
  apply replaceAll_unique (marker i) f (marker_ne_nil i) W Z
  · intro p hp hocc
    have hsplit : marker i ++ Z = markerPre ++ (natDigits i ++ (markerSuf ++ Z)) := by
      rw [marker_eq]
      simp [List.append_assoc]
    rw [hsplit] at hocc
    exact marked_no_occ i lo hi hW _ p hp hocc
  · exact fun p => hZ.no_occ i p

theorem maskGo_cons (s e : Nat) (txt : Str) (ms : List FMatch) (res : Str)
    (fs : List (Nat × Str)) (idx : Nat) :
    maskGo ((s, e, txt) :: ms) res fs idx
      = if (pyStrip txt).length < 3 then maskGo ms res fs idx
        else if !isLikelyFormula txt then maskGo ms res fs idx
        else maskGo ms (res.take s ++ marker idx ++ res.drop e) (fs ++ [(idx, txt)]) (idx + 1) := rfl

/-- The formula accumulator is only ever appended to. -/
theorem maskGo_fs (ms : List FMatch) : ∀ (res : Str) (fs : List (Nat × Str)) (idx : Nat),
    maskGo ms res fs idx = ((maskGo ms res [] idx).1, fs ++ (maskGo ms res [] idx).2) := by
  induction ms with
  | nil => intro res fs idx; simp [maskGo]
  | cons m ms ih =>
    intro res fs idx
    obtain ⟨s, e, txt⟩ := m
    rw [maskGo_cons, maskGo_cons]
    by_cases h1 : (pyStrip txt).length < 3
    · rw [if_pos h1, if_pos h1, ih res fs idx]
    · rw [if_neg h1, if_neg h1]
      by_cases h2 : isLikelyFormula txt
      · simp only [h2, Bool.not_true, Bool.false_eq_true, if_false]
        rw [ih _ (fs ++ [(idx, txt)]) (idx + 1), ih _ ([] ++ [(idx, txt)]) (idx + 1)]
        simp
      · simp only [Bool.not_eq_true] at h2
        simp only [h2, Bool.not_false, if_true]
        rw [ih res fs idx]

/-- Splicing only ever happens left of `P` when every kept span lies
within `P`, so a fixed suffix `Q` is carried along unchanged. -/
theorem maskGo_append (ms : List FMatch) : ∀ (P Q : Str) (fs : List (Nat × Str)) (idx : Nat),
    DescSepK ms →
    (∀ m ∈ ms, KeepM m → m.1 < m.2.1 ∧ m.2.1 ≤ P.length) →
    maskGo ms (P ++ Q) fs idx
      = ((maskGo ms P fs idx).1 ++ Q, (maskGo ms P fs idx).2) := by
  induction ms with
  | nil => intro P Q fs idx _ _; simp [maskGo]
  | cons m ms ih =>
    intro P Q fs idx hsep hb
    obtain ⟨s, e, txt⟩ := m
    rw [maskGo_cons, maskGo_cons]
    by_cases h1 : (pyStrip txt).length < 3
    · rw [if_pos h1, if_pos h1]
      exact ih P Q fs idx hsep.2 (fun m hm => hb m (by simp [hm]))
    · rw [if_neg h1, if_neg h1]
      by_cases h2 : isLikelyFormula txt
      · simp only [h2, Bool.not_true, Bool.false_eq_true, if_false]
        have hkeep : KeepM (s, e, txt) := ⟨h1, h2⟩
        have hse := hb (s, e, txt) (by simp) hkeep
        have htake : (P ++ Q).take s = P.take s :=
          List.take_append_of_le_length (by omega)
        have hdrop : (P ++ Q).drop e = P.drop e ++ Q := by
          rw [List.drop_append_eq_append_drop, Nat.sub_eq_zero_of_le hse.2, List.drop_zero]
        rw [htake, hdrop]
        have hre : P.take s ++ marker idx ++ (P.drop e ++ Q)
            = (P.take s ++ marker idx ++ P.drop e) ++ Q := by
          simp [List.append_assoc]
        rw [hre]
        refine ih _ Q _ (idx + 1) hsep.2 ?_
        intro m' hm' hk
        have h3 := hb m' (by simp [hm']) hk
        have h5 : m'.2.1 ≤ s := hsep.1 hkeep m' hm' hk
        refine ⟨h3.1, ?_⟩
        have h6 : (P.take s ++ marker idx ++ P.drop e).length
            = s + (marker idx).length + (P.length - e) := by
          simp only [List.length_append, List.length_take, List.length_drop]
          omega
        omega
      · simp only [Bool.not_eq_true] at h2
        simp only [h2, Bool.not_false, if_true]
        exact ih P Q fs idx hsep.2 (fun m hm => hb m (by simp [hm]))

theorem pyStrip_length_le (t : Str) : (pyStrip t).length ≤ t.length := by
  simp only [pyStrip, List.length_reverse]
  calc ((t.dropWhile isPySpace).reverse.dropWhile isPySpace).length
      ≤ (t.dropWhile isPySpace).reverse.length :=
        (List.dropWhile_suffix _).sublist.length_le
    _ = (t.dropWhile isPySpace).length := List.length_reverse _
    _ ≤ t.length := (List.dropWhile_suffix _).sublist.length_le

theorem slice_ne_nil {T : Str} {s e : Nat} (h : slice T s e ≠ []) :
    s < e ∧ s < T.length := by
  simp only [slice] at h
  constructor
  · by_contra hse
    have : e - s = 0 := by omega
    rw [this, List.take_zero] at h
    exact h rfl
  · by_contra hs
    have : T.drop s = [] := List.drop_eq_nil_iff_le.mpr (by omega)
    rw [this, List.take_nil] at h
    exact h rfl

theorem slice_of_take {T : Str} {s e m : Nat} (h : e ≤ m) :
    slice (T.take m) s e = slice T s e := by
  simp only [slice]
  rw [List.drop_take]
  rw [List.take_take]
  congr 1
  omega

theorem reconstruct {T : Str} {s e : Nat} (h : s ≤ e) :
    T.take s ++ (slice T s e ++ T.drop e) = T := by
  simp only [slice]
  have h1 : T.take e = T.take s ++ (T.drop s).take (e - s) := by
    rw [← List.take_add]
    congr 1
    omega
  rw [← List.append_assoc, ← h1, List.take_append_drop]

/-- The masked text is an interleaving of clean blocks with placeholders
of index at least `b`. -/
theorem mask_marked (ms : List FMatch) : ∀ (T : Str) (b : Nat),
    Clean T → DescSepK ms →
    (∀ m ∈ ms, KeepM m → m.1 < m.2.1 ∧ m.2.1 ≤ T.length) →
    Marked b ((maskGo ms T [] b).1) := by
  induction ms with
  | nil => intro T b hT _ _; exact Marked.nil T hT
  | cons m ms ih =>
    intro T b hT hsep hb
    obtain ⟨s, e, txt⟩ := m
    rw [maskGo_cons]
    by_cases h1 : (pyStrip txt).length < 3
    · rw [if_pos h1]
      exact ih T b hT hsep.2 (fun m hm => hb m (by simp [hm]))
    · rw [if_neg h1]
      by_cases h2 : isLikelyFormula txt
      · simp only [h2, Bool.not_true, Bool.false_eq_true, if_false]
        have hkeep : KeepM (s, e, txt) := ⟨h1, h2⟩
        have hse := hb (s, e, txt) (by simp) hkeep
        have hs_len : (T.take s).length = s := by
          rw [List.length_take]
          omega
        have hsplit : T.take s ++ marker b ++ T.drop e
            = T.take s ++ (marker b ++ T.drop e) := by
          simp [List.append_assoc]
        rw [hsplit, maskGo_append ms (T.take s) (marker b ++ T.drop e) _ (b + 1) hsep.2 ?later]
        case later =>
          intro m' hm' hk
          have h3 := hb m' (by simp [hm']) hk
          have h5 : m'.2.1 ≤ s := hsep.1 hkeep m' hm' hk
          exact ⟨h3.1, by omega⟩
        have hW : Marked (b + 1) ((maskGo ms (T.take s) [] (b + 1)).1) := by
          refine ih (T.take s) (b + 1) (hT.of_infix (List.take_prefix s T).isInfix)
            hsep.2 ?_
          intro m' hm' hk
          have h3 := hb m' (by simp [hm']) hk
          have h5 : m'.2.1 ≤ s := hsep.1 hkeep m' hm' hk
          exact ⟨h3.1, by omega⟩
        rw [maskGo_fs]
        exact Marked.snoc (hW.mono (by omega)) b (by omega)
          (hT.of_infix (List.drop_suffix e T).isInfix)
      · simp only [Bool.not_eq_true] at h2
        simp only [h2, Bool.not_false, if_true]
        exact ih T b hT hsep.2 (fun m hm => hb m (by simp [hm]))

/-- Main restoration lemma: restoring the formula table of a masking run
over a clean text (with any clean continuation) recovers the text. -/
theorem mask_restore_aux (ms : List FMatch) : ∀ (T Y : Str) (b : Nat),
    Clean (T ++ Y) → DescSepK ms →
    (∀ m ∈ ms, KeepM m → m.1 < m.2.1 ∧ m.2.1 ≤ T.length ∧ m.2.2 = slice T m.1 m.2.1) →
    pyRestore ((maskGo ms T [] b).1 ++ Y) (maskGo ms T [] b).2 = T ++ Y := by
  induction ms with
  | nil => intro T Y b _ _ _; simp [maskGo, pyRestore]
  | cons m ms ih =>
    intro T Y b hTY hsep hb
    obtain ⟨s, e, txt⟩ := m
    rw [maskGo_cons]
    by_cases h1 : (pyStrip txt).length < 3
    · rw [if_pos h1]
      exact ih T Y b hTY hsep.2 (fun m hm => hb m (by simp [hm]))
    · rw [if_neg h1]
      by_cases h2 : isLikelyFormula txt
      · simp only [h2, Bool.not_true, Bool.false_eq_true, if_false]
        have hkeep : KeepM (s, e, txt) := ⟨h1, h2⟩
        have hse0 := hb (s, e, txt) (by simp) hkeep
        have hsLT : s < e := hse0.1
        have heT : e ≤ T.length := hse0.2.1
        have htxt0 : txt = slice T s e := hse0.2.2
        have hTclean : Clean T := hTY.of_infix ⟨[], Y, by simp⟩
        have hs_len : (T.take s).length = s := by
          rw [List.length_take]
          omega
        have hlater : ∀ m' ∈ ms, KeepM m' → m'.1 < m'.2.1 ∧ m'.2.1 ≤ (T.take s).length := by
          intro m' hm' hk
          have h3 := hb m' (by simp [hm']) hk
          have h5 : m'.2.1 ≤ s := hsep.1 hkeep m' hm' hk
          exact ⟨h3.1, by omega⟩
        have hsplit : T.take s ++ marker b ++ T.drop e
            = T.take s ++ (marker b ++ T.drop e) := by
          simp [List.append_assoc]
        rw [hsplit, maskGo_append ms (T.take s) (marker b ++ T.drop e) _ (b + 1) hsep.2 hlater]
        rw [maskGo_fs]
        set W := (maskGo ms (T.take s) [] (b + 1)).1 with hWdef
        set F := (maskGo ms (T.take s) [] (b + 1)).2 with hFdef
        simp only [List.nil_append]
        have hW : Marked (b + 1) W :=
          mask_marked ms (T.take s) (b + 1) (hTclean.of_infix (List.take_prefix s T).isInfix)
            hsep.2 hlater
        have hZ : Clean (T.drop e ++ Y) := by
          refine hTY.of_infix ?_
          refine List.IsSuffix.isInfix ?_
          exact ⟨T.take e, by rw [← List.append_assoc, List.take_append_drop]⟩
        have hstep : pyRestore (W ++ (marker b ++ T.drop e) ++ Y) ((b, txt) :: F)
            = pyRestore (W ++ (txt ++ (T.drop e ++ Y))) F := by
          simp only [pyRestore, List.foldl_cons]
          congr 1
          have hassoc : W ++ (marker b ++ T.drop e) ++ Y = W ++ (marker b ++ (T.drop e ++ Y)) := by
            simp [List.append_assoc]
          rw [hassoc]
          exact replace_marker b (b + 1) (by omega) hW hZ txt
        simp only [List.singleton_append]
        rw [hstep]
        have hrecon : T.take s ++ (txt ++ (T.drop e ++ Y)) = T ++ Y := by
          rw [htxt0]
          have := reconstruct (T := T) (by omega : s ≤ e)
          calc T.take s ++ (slice T s e ++ (T.drop e ++ Y))
              = (T.take s ++ (slice T s e ++ T.drop e)) ++ Y := by simp [List.append_assoc]
            _ = T ++ Y := by rw [this]
        have hIH := ih (T.take s) (txt ++ (T.drop e ++ Y)) (b + 1)
          (by rw [hrecon]; exact hTY) hsep.2 ?hb'
        case hb' =>
          intro m' hm' hk
          have h3 := hb m' (by simp [hm']) hk
          have h5 : m'.2.1 ≤ s := hsep.1 hkeep m' hm' hk
          refine ⟨h3.1, by omega, ?_⟩
          rw [h3.2.2, slice_of_take h5]
        rw [← hWdef, ← hFdef] at hIH
        calc pyRestore (W ++ (txt ++ (T.drop e ++ Y))) F
            = T.take s ++ (txt ++ (T.drop e ++ Y)) := hIH
          _ = T ++ Y := hrecon
      · simp only [Bool.not_eq_true] at h2
        simp only [h2, Bool.not_false, if_true]
        exact ih T Y b hTY hsep.2 (fun m hm => hb m (by simp [hm]))

-- ### Span sanity of the matcher and the collection loop

/-- Every successful run of the matcher hands its continuation a
position between the start position and the end of the input. -/
theorem reMatch_bound (t : Str) : ∀ (fuel : Nat) (re : RE) (pos : Nat)
    (k : Nat → Option Nat) (v : Nat),
    reMatch t fuel re pos k = some v → pos ≤ t.length →
    ∃ p, pos ≤ p ∧ p ≤ t.length ∧ k p = some v := by
  intro fuel
  induction fuel with
  | zero => intro re pos k v h _; simp [reMatch] at h
  | succ fuel ih =>
    intro re pos k v h hpos
    cases re with
    | eps => exact ⟨pos, Nat.le_refl _, hpos, h⟩
    | chr c =>
      simp only [reMatch] at h
      split at h
      case h_1 c' hg =>
        have hlt : pos < t.length := by
          rcases List.get?_eq_some.mp hg with ⟨hl, -⟩
          exact hl
        split at h
        · exact ⟨pos + 1, by omega, by omega, h⟩
        · exact absurd h (by simp)
      case h_2 => exact absurd h (by simp)
    | cls p =>
      simp only [reMatch] at h
      split at h
      case h_1 c' hg =>
        have hlt : pos < t.length := by
          rcases List.get?_eq_some.mp hg with ⟨hl, -⟩
          exact hl
        split at h
        · exact ⟨pos + 1, by omega, by omega, h⟩
        · exact absurd h (by simp)
      case h_2 => exact absurd h (by simp)
    | seq a b =>
      simp only [reMatch] at h
      rcases ih a pos _ v h hpos with ⟨p₁, hp₁, hp₁', h₁⟩
      rcases ih b p₁ k v h₁ hp₁' with ⟨p₂, hp₂, hp₂', h₂⟩
      exact ⟨p₂, by omega, hp₂', h₂⟩
    | alt a b =>
      simp only [reMatch] at h
      cases ha : reMatch t fuel a pos k with
      | some w =>
        rw [ha] at h
        have h2 : some w = some v := h
        exact ih a pos k v (by rw [ha, h2]) hpos
      | none =>
        rw [ha] at h
        have h2 : reMatch t fuel b pos k = some v := h
        exact ih b pos k v h2 hpos
    | look a =>
      simp only [reMatch] at h
      split at h
      · exact ⟨pos, Nat.le_refl _, hpos, h⟩
      · exact absurd h (by simp)
    | bol =>
      simp only [reMatch] at h
      split at h
      · exact ⟨pos, Nat.le_refl _, hpos, h⟩
      · split at h
        · split at h
          · exact ⟨pos, Nat.le_refl _, hpos, h⟩
          · exact absurd h (by simp)
        · exact absurd h (by simp)
    | eol =>
      simp only [reMatch] at h
      split at h
      · exact ⟨pos, Nat.le_refl _, hpos, h⟩
      · split at h
        · split at h
          · exact ⟨pos, Nat.le_refl _, hpos, h⟩
          · exact absurd h (by simp)
        · exact absurd h (by simp)
    | wordB =>
      simp only [reMatch] at h
      split at h
      · exact ⟨pos, Nat.le_refl _, hpos, h⟩
      · exact absurd h (by simp)
    | rep lo hi lzy a =>
      simp only [reMatch] at h
      by_cases hlo : lo > 0
      · rw [if_pos hlo] at h
        rcases ih a pos _ v h hpos with ⟨p₁, hp₁, hp₁', h₁⟩
        rcases ih _ p₁ k v h₁ hp₁' with ⟨p₂, hp₂, hp₂', h₂⟩
        exact ⟨p₂, by omega, hp₂', h₂⟩
      · rw [if_neg hlo] at h
        have hbody : ∀ (hi' : Option Nat),
            reMatch t fuel a pos
              (fun q => if q = pos then none
                else reMatch t fuel (RE.rep 0 hi' lzy a) q k) = some v →
            ∃ p, pos ≤ p ∧ p ≤ t.length ∧ k p = some v := by
          intro hi' hb
          rcases ih a pos _ v hb hpos with ⟨p₁, hp₁, hp₁', h₁⟩
          have h₁' : (if p₁ = pos then none
              else reMatch t fuel (RE.rep 0 hi' lzy a) p₁ k) = some v := h₁
          by_cases hq : p₁ = pos
          · rw [if_pos hq] at h₁'; exact absurd h₁' (by simp)
          · rw [if_neg hq] at h₁'
            rcases ih _ p₁ k v h₁' hp₁' with ⟨p₂, hp₂, hp₂', h₂⟩
            exact ⟨p₂, by omega, hp₂', h₂⟩
        cases hi with
        | none =>
          by_cases hlzy : lzy
          · rw [if_pos hlzy] at h
            cases hk : k pos with
            | some w =>
              rw [hk] at h
              have h2 : some w = some v := h
              exact ⟨pos, Nat.le_refl _, hpos, by rw [hk, h2]⟩
            | none =>
              rw [hk] at h
              have h2 : reMatch t fuel a pos
                  (fun q => if q = pos then none
                    else reMatch t fuel (RE.rep 0 (Option.map (· - 1) none) lzy a) q k)
                  = some v := h
              exact hbody _ h2
          · rw [if_neg hlzy] at h
            cases hbm : reMatch t fuel a pos
                (fun q => if q = pos then none
                  else reMatch t fuel (RE.rep 0 (Option.map (· - 1) none) lzy a) q k) with
            | some w =>
              rw [hbm] at h
              have h2 : some w = some v := h
              exact hbody _ (by rw [hbm, h2])
            | none =>
              rw [hbm] at h
              have h2 : k pos = some v := h
              exact ⟨pos, Nat.le_refl _, hpos, h2⟩
        | some n =>
          cases n with
          | zero => exact ⟨pos, Nat.le_refl _, hpos, h⟩
          | succ n =>
            by_cases hlzy : lzy
            · rw [if_pos hlzy] at h
              cases hk : k pos with
              | some w =>
                rw [hk] at h
                have h2 : some w = some v := h
                exact ⟨pos, Nat.le_refl _, hpos, by rw [hk, h2]⟩
              | none =>
                rw [hk] at h
                have h2 : reMatch t fuel a pos
                    (fun q => if q = pos then none
                      else reMatch t fuel (RE.rep 0 (Option.map (· - 1) (some (n + 1))) lzy a) q k)
                    = some v := h
                exact hbody _ h2
            · rw [if_neg hlzy] at h
              cases hbm : reMatch t fuel a pos
                  (fun q => if q = pos then none
                    else reMatch t fuel (RE.rep 0 (Option.map (· - 1) (some (n + 1))) lzy a) q k) with
              | some w =>
                rw [hbm] at h
                have h2 : some w = some v := h
                exact hbody _ (by rw [hbm, h2])
              | none =>
                rw [hbm] at h
                have h2 : k pos = some v := h
                exact ⟨pos, Nat.le_refl _, hpos, h2⟩

/-- Spans found by the scanner lie inside the input and are ordered. -/
theorem findGo_bounds (t : Str) (re : RE) : ∀ (steps p₀ : Nat),
    ∀ m ∈ findGo t re steps p₀, p₀ ≤ m.1 ∧ m.1 ≤ m.2 ∧ m.2 ≤ t.length := by
  intro steps
  induction steps with
  | zero => intro p₀ m hm; simp [findGo] at hm
  | succ steps ih =>
    intro p₀ m hm
    simp only [findGo] at hm
    by_cases hp : p₀ > t.length
    · rw [if_pos hp] at hm; simp at hm
    · rw [if_neg hp] at hm
      cases hr : reMatch t (matchFuel t.length) re p₀ some with
      | some e =>
        rw [hr] at hm
        have hbound : p₀ ≤ e ∧ e ≤ t.length := by
          rcases reMatch_bound t _ re p₀ some e hr (by omega) with ⟨p, hp₁, hp₂, hp₃⟩
          have : p = e := by
            have := hp₃
            simp only [Option.some.injEq] at this
            exact this
          omega
        rcases List.mem_cons.mp hm with rfl | hm'
        · exact ⟨Nat.le_refl _, hbound.1, hbound.2⟩
        · have := ih _ m hm'
          constructor
          · by_cases he : e > p₀ <;> simp only [he, if_true, if_false] at this <;> omega
          · exact this.2
      | none =>
        rw [hr] at hm
        have := ih _ m hm
        exact ⟨by omega, this.2⟩

theorem NoOv.symm {m m' : FMatch} (h : NoOv m m') : NoOv m' m := by
  unfold NoOv at *
  tauto

theorem collectGo_inv (t : Str) : ∀ (pm : List (Nat × Nat)) (acc : List FMatch),
    (∀ p ∈ pm, p.1 ≤ p.2 ∧ p.2 ≤ t.length) →
    (∀ m ∈ acc, MOk t m) → List.Pairwise NoOv acc →
    (∀ m ∈ collectGo t acc pm, MOk t m) ∧ List.Pairwise NoOv (collectGo t acc pm) := by
  intro pm
  induction pm with
  | nil => intro acc _ hok hpair; exact ⟨hok, hpair⟩
  | cons p pm ih =>
    intro acc hpm hok hpair
    obtain ⟨s, e⟩ := p
    simp only [collectGo]
    by_cases hy : acc.any (spanOverlap s e)
    · rw [if_pos hy]
      exact ih acc (fun q hq => hpm q (by simp [hq])) hok hpair
    · rw [if_neg hy]
      have hse := hpm (s, e) (by simp)
      refine ih _ (fun q hq => hpm q (by simp [hq])) ?_ ?_
      · intro m hm
        rcases List.mem_append.mp hm with hm' | hm'
        · exact hok m hm'
        · simp only [List.mem_singleton] at hm'
          subst hm'
          exact ⟨hse.1, hse.2, rfl⟩
      · rw [List.pairwise_append]
        refine ⟨hpair, by simp, ?_⟩
        intro a ha b hb
        simp only [List.mem_singleton] at hb
        subst hb
        have hy' : acc.any (spanOverlap s e) = false := by
          rwa [Bool.not_eq_true] at hy
        have hnov : spanOverlap s e a = false := by
          rw [List.any_eq_false] at hy'
          simpa using hy' a ha
        simp only [spanOverlap, Bool.and_eq_false_iff, decide_eq_false_iff_not] at hnov
        unfold NoOv
        simp only [not_and]
        intro h1 h2
        rcases hnov with h | h
        · exact h h2
        · exact h h1

theorem collectMatches_inv (t : Str) :
    (∀ m ∈ collectMatches t, MOk t m) ∧ List.Pairwise NoOv (collectMatches t) := by
  unfold collectMatches
  have hgen : ∀ (ps : List RE) (acc : List FMatch),
      (∀ m ∈ acc, MOk t m) → List.Pairwise NoOv acc →
      (∀ m ∈ ps.foldl (fun acc re => collectGo t acc (findAll re t)) acc, MOk t m) ∧
        List.Pairwise NoOv (ps.foldl (fun acc re => collectGo t acc (findAll re t)) acc) := by
    intro ps
    induction ps with
    | nil => intro acc hok hpair; exact ⟨hok, hpair⟩
    | cons re ps ih =>
      intro acc hok hpair
      simp only [List.foldl_cons]
      have hfb : ∀ p ∈ findAll re t, p.1 ≤ p.2 ∧ p.2 ≤ t.length := by
        intro p hp
        have := findGo_bounds t re (t.length + 2) 0 p hp
        exact ⟨this.2.1, this.2.2⟩
      rcases collectGo_inv t (findAll re t) acc hfb hok hpair with ⟨h1, h2⟩
      exact ih _ h1 h2
  exact hgen extractorPatterns [] (by simp) (by simp)

-- ### The stable descending sort

theorem insDesc_perm (m : FMatch) : ∀ xs, (insDesc m xs).Perm (m :: xs) := by
  intro xs
  induction xs with
  | nil => simp [insDesc]
  | cons x xs ih =>
    simp only [insDesc]
    by_cases h : m.1 ≤ x.1
    · rw [if_pos h]
      exact (ih.cons x).trans (List.Perm.swap m x xs)
    · rw [if_neg h]

theorem sortDesc_perm (ms : List FMatch) : (sortDesc ms).Perm ms := by
  unfold sortDesc
  have hgen : ∀ (ms acc : List FMatch),
      (ms.foldl (fun acc m => insDesc m acc) acc).Perm (acc ++ ms) := by
    intro ms
    induction ms with
    | nil => intro acc; simp
    | cons m ms ih =>
      intro acc
      simp only [List.foldl_cons]
      refine (ih (insDesc m acc)).trans ?_
      refine ((insDesc_perm m acc).append_right ms).trans ?_
      simp only [List.cons_append]
      exact List.perm_middle.symm
  simpa using hgen ms []

theorem insDesc_sorted (m : FMatch) : ∀ (xs : List FMatch),
    List.Pairwise (fun a b : FMatch => b.1 ≤ a.1) xs →
    List.Pairwise (fun a b : FMatch => b.1 ≤ a.1) (insDesc m xs) := by
  intro xs
  induction xs with
  | nil => intro _; simp [insDesc]
  | cons x xs ih =>
    intro hp
    simp only [insDesc]
    by_cases h : m.1 ≤ x.1
    · rw [if_pos h]
      rw [List.pairwise_cons] at hp ⊢
      refine ⟨?_, ih hp.2⟩
      intro b hb
      have := (insDesc_perm m xs).mem_iff.mp hb
      rcases List.mem_cons.mp this with rfl | hb'
      · exact h
      · exact hp.1 b hb'
    · rw [if_neg h]
      rw [List.pairwise_cons]
      refine ⟨?_, hp⟩
      intro b hb
      rcases List.mem_cons.mp hb with rfl | hb'
      · omega
      · have := List.pairwise_cons.mp hp
        have h2 := this.1 b hb'
        omega

theorem sortDesc_sorted (ms : List FMatch) :
    List.Pairwise (fun a b : FMatch => b.1 ≤ a.1) (sortDesc ms) := by
  unfold sortDesc
  have hgen : ∀ (ms acc : List FMatch),
      List.Pairwise (fun a b : FMatch => b.1 ≤ a.1) acc →
      List.Pairwise (fun a b : FMatch => b.1 ≤ a.1)
        (ms.foldl (fun acc m => insDesc m acc) acc) := by
    intro ms
    induction ms with
    | nil => intro acc h; exact h
    | cons m ms ih =>
      intro acc h
      simp only [List.foldl_cons]
      exact ih _ (insDesc_sorted m acc h)
  exact hgen ms [] (by simp)

-- ### Assembling the round-trip hypotheses

theorem keep_nonempty {T : Str} {m : FMatch} (hok : MOk T m) (hk : KeepM m) :
    m.1 < m.2.1 := by
  have h3 : 3 ≤ (pyStrip m.2.2).length := by
    have := hk.1
    omega
  have hlen : 3 ≤ m.2.2.length := le_trans h3 (pyStrip_length_le _)
  have hne : m.2.2 ≠ [] := by
    intro h
    rw [h] at hlen
    simp at hlen
  rw [hok.2.2] at hne
  exact (slice_ne_nil hne).1

theorem descSepK_of (T : Str) : ∀ (K : List FMatch),
    List.Pairwise (fun a b : FMatch => b.1 ≤ a.1) K →
    List.Pairwise NoOv K →
    (∀ m ∈ K, MOk T m) →
    DescSepK K := by
  intro K
  induction K with
  | nil => intro _ _ _; trivial
  | cons m K ih =>
    intro hsort hpair hok
    rw [List.pairwise_cons] at hsort hpair
    refine ⟨?_, ih hsort.2 hpair.2 (fun m' hm' => hok m' (by simp [hm']))⟩
    intro hk m' hm' hk'
    have hmok := hok m (by simp)
    have hmok' := hok m' (by simp [hm'])
    have hne : m.1 < m.2.1 := keep_nonempty hmok hk
    have hne' : m'.1 < m'.2.1 := keep_nonempty hmok' hk'
    have hle : m'.1 ≤ m.1 := hsort.1 m' hm'
    have hnov : NoOv m m' := hpair.1 m' hm'
    unfold NoOv at hnov
    by_contra hcon
    exact hnov ⟨by omega, by omega⟩

/-- Round trip of `FormulaExtractor` on any input in which the literal
placeholder prefix `<<<FORMULA_` does not occur. -/
theorem extract_restore_of_clean (T : Str) (hT : Clean T) :
    pyRestore (pyExtract T).1 (pyExtract T).2 = T := by
  unfold pyExtract
  have hperm := sortDesc_perm (collectMatches T)
  have hsort := sortDesc_sorted (collectMatches T)
  rcases collectMatches_inv T with ⟨hok, hpair⟩
  have hok' : ∀ m ∈ sortDesc (collectMatches T), MOk T m :=
    fun m hm => hok m (hperm.mem_iff.mp hm)
  have hpair' : List.Pairwise NoOv (sortDesc (collectMatches T)) :=
    (hperm.pairwise_iff (fun h => h.symm)).mpr hpair
  have hsep := descSepK_of T _ hsort hpair' hok'
  have hb : ∀ m ∈ sortDesc (collectMatches T), KeepM m →
      m.1 < m.2.1 ∧ m.2.1 ≤ T.length ∧ m.2.2 = slice T m.1 m.2.1 := by
    intro m hm hk
    have hmok := hok' m hm
    exact ⟨keep_nonempty hmok hk, hmok.2.1, hmok.2.2⟩
  have := mask_restore_aux (sortDesc (collectMatches T)) T [] 0
    (by rw [List.append_nil]; exact hT) hsep hb
  rw [List.append_nil, List.append_nil] at this
  exact this

theorem protPre_length : protPre.length = 12 := rfl

theorem protSuf_length : protSuf.length = 2 := rfl

theorem protTok_length (i : Nat) : (protTok i).length = 14 + (natDigits i).length := by
  simp only [protTok, List.length_append, protPre_length, protSuf_length]
  omega

theorem natDigits_length_pos (i : Nat) : 1 ≤ (natDigits i).length := by
  cases h : natDigits i with
  | nil => exact absurd h (natDigits_ne_nil i)
  | cons c r => simp

theorem protTok_getElem?_pre (i : Nat) (idx : Nat) (h : idx < 12) :
    (protTok i)[idx]? = protPre[idx]? := by
  unfold protTok
  exact List.getElem?_append_left (by simp [protPre, strOf]; omega)

theorem protPre_underscore_pos :
    ∀ p, p < 12 → protPre[p]? = some '_' → p = 0 ∨ p = 1 ∨ p = 11 := by decide

theorem protSuf_getElem?_some {k : Nat} {c : Char} (h : protSuf[k]? = some c) :
    c = '_' ∧ k < 2 := by
  rcases List.getElem?_eq_some.mp h with ⟨hk, hv⟩
  have hk2 : k < 2 := by
    have : protSuf.length = 2 := rfl
    omega
  refine ⟨?_, hk2⟩
  rw [← hv]
  interval_cases k <;> rfl

/-- The underscore positions of a protection placeholder. -/
theorem protTok_underscore (j : Nat) (p : Nat) (h : (protTok j)[p]? = some '_') :
    p = 0 ∨ p = 1 ∨ p = 11 ∨ p = 12 + (natDigits j).length ∨ p = 13 + (natDigits j).length := by
  rcases Nat.lt_or_ge p 12 with hp | hp
  · have := protPre_underscore_pos p hp (by rw [← protTok_getElem?_pre j p hp]; exact h)
    tauto
  · unfold protTok at h
    rw [List.getElem?_append_right (by simp [protPre, strOf]; omega)] at h
    have hpre : protPre.length = 12 := rfl
    rw [hpre] at h
    rcases Nat.lt_or_ge (p - 12) (natDigits j).length with hd | hd
    · exfalso
      rw [List.getElem?_append_left hd] at h
      have hmem : '_' ∈ natDigits j := by
        rcases List.getElem?_eq_some.mp h with ⟨hlt, hget⟩
        rw [← hget]
        exact List.getElem_mem hlt
      have := natDigits_all_digits j '_' hmem
      simp at this
    · rw [List.getElem?_append_right hd] at h
      have := protSuf_getElem?_some h
      omega

/-- The only underscore of a formula placeholder is at position 10. -/
theorem marker_underscore (j : Nat) (p : Nat) (h : (marker j)[p]? = some '_') : p = 10 := by
  rcases Nat.lt_or_ge p 11 with hp | hp
  · have h2 : markerPre[p]? = some '_' := by rw [← marker_getElem?_pre j p hp]; exact h
    have : ∀ q, q < 11 → markerPre[q]? = some '_' → q = 10 := by decide
    exact this p hp h2
  · exfalso
    rw [marker_eq] at h
    rw [List.getElem?_append_right (by rw [markerPre_length]; omega), markerPre_length] at h
    rcases Nat.lt_or_ge (p - 11) (natDigits j).length with hd | hd
    · rw [List.getElem?_append_left hd] at h
      have hmem : '_' ∈ natDigits j := by
        rcases List.getElem?_eq_some.mp h with ⟨hlt, hget⟩
        rw [← hget]
        exact List.getElem_mem hlt
      have := natDigits_all_digits j '_' hmem
      simp at this
    · rw [List.getElem?_append_right hd] at h
      have : ∀ k : Nat, ¬ markerSuf[k]? = some '_' := by
        intro k hk
        rcases Nat.lt_or_ge k 3 with h3 | h3
        · interval_cases k <;> simp_all <;> exact absurd hk (by decide)
        · rw [List.getElem?_eq_none (by exact h3)] at hk
          exact Option.noConfusion hk
      exact this _ h

/-- A formula placeholder contains no `<` ... the protection placeholder
contains no `<` at all. -/
theorem protTok_no_lt (j : Nat) (p : Nat) : ¬ (protTok j)[p]? = some '<' := by
  intro h
  rcases Nat.lt_or_ge p 12 with hp | hp
  · rw [protTok_getElem?_pre j p hp] at h
    have : ∀ q, q < 12 → ¬ protPre[q]? = some '<' := by decide
    exact this p hp h
  · unfold protTok at h
    rw [List.getElem?_append_right (by simp [protPre, strOf]; omega)] at h
    have hpre : protPre.length = 12 := rfl
    rw [hpre] at h
    rcases Nat.lt_or_ge (p - 12) (natDigits j).length with hd | hd
    · rw [List.getElem?_append_left hd] at h
      have hmem : '<' ∈ natDigits j := by
        rcases List.getElem?_eq_some.mp h with ⟨hlt, hget⟩
        rw [← hget]
        exact List.getElem_mem hlt
      have := natDigits_all_digits j '<' hmem
      simp at this
    · rw [List.getElem?_append_right hd] at h
      have := protSuf_getElem?_some h
      simp at this

theorem occursAt_length_le {pat t : Str} {p : Nat} (hne : pat ≠ []) (h : occursAt pat t p) :
    p + pat.length ≤ t.length := by
  rcases h with ⟨v, hv⟩
  have hlen := congrArg List.length hv
  simp only [List.length_append, List.length_drop] at hlen
  have hpos : 1 ≤ pat.length := by
    cases pat with
    | nil => exact absurd rfl hne
    | cons c r => simp
  omega

theorem protTok_ne_nil (i : Nat) : protTok i ≠ [] := by
  intro h
  have h1 := protTok_length i
  rw [h] at h1
  simp only [List.length_nil] at h1
  omega

/-- Two distinct protection placeholders: neither occurs in the other. -/
theorem protTok_no_occ (i j : Nat) (hij : i ≠ j) (q : Nat) :
    ¬ occursAt (protTok i) (protTok j) q := by
  intro h
  have hlen := occursAt_length_le (protTok_ne_nil i) h
  rw [protTok_length, protTok_length] at hlen
  have hdi := natDigits_length_pos i
  have hdj := natDigits_length_pos j
  rcases Nat.eq_zero_or_pos q with rfl | hq
  · have hpref : protTok i <+: protTok j := by
      have := (occursAt_iff _ _ _).mp h
      rwa [List.drop_zero] at this
    unfold protTok at hpref
    rw [List.prefix_append_right_inj] at hpref
    have h1 : natDigits i ++ ('_' :: strOf "_") <+: natDigits j ++ ('_' :: strOf "_") := hpref
    have := digits_prefix_eq (natDigits i) (natDigits j) '_' (strOf "_") (strOf "_")
      (natDigits_all_digits i) (natDigits_all_digits j) (by decide) h1
    exact hij (natDigits_injective this)
  · have hc0 : (protTok j)[q + 0]? = some '_' := by
      rw [occursAt_getElem? h 0 (by rw [protTok_length]; omega)]
      rfl
    have hc1 : (protTok j)[q + 1]? = some '_' := by
      rw [occursAt_getElem? h 1 (by rw [protTok_length]; omega)]
      rfl
    rw [Nat.add_zero] at hc0
    have h0 := protTok_underscore j q hc0
    have h1 := protTok_underscore j (q + 1) hc1
    omega

/-- Distinct formula placeholders: neither occurs in the other. -/
theorem marker_no_occ (i j : Nat) (hij : i ≠ j) (q : Nat) :
    ¬ occursAt (marker i) (marker j) q := by
  intro h
  have hlen := occursAt_length_le (marker_ne_nil i) h
  have hocc : occursAt (marker i) (marker j ++ []) q := by
    rwa [List.append_nil]
  rcases occ_in_marker i j [] q hocc with ⟨-, rfl⟩ | hge
  · exact hij rfl
  · have := marker_length_ge i
    omega

/-- Formula and protection placeholders never occur in one another. -/
theorem marker_protTok_no_occ (i j : Nat) (q : Nat) :
    ¬ occursAt (marker i) (protTok j) q ∧ ¬ occursAt (protTok i) (marker j) q := by
  constructor
  · intro h
    have hc : (protTok j)[q + 0]? = some '<' := by
      rw [occursAt_getElem? h 0 (by have := marker_length_ge i; omega)]
      exact marker_head_lt i 0 (by omega)
    exact protTok_no_lt j (q + 0) hc
  · intro h
    have hc0 : (marker j)[q + 0]? = some '_' := by
      rw [occursAt_getElem? h 0 (by rw [protTok_length]; have := natDigits_length_pos i; omega)]
      rfl
    have hc1 : (marker j)[q + 1]? = some '_' := by
      rw [occursAt_getElem? h 1 (by rw [protTok_length]; have := natDigits_length_pos i; omega)]
      rfl
    have h0 := marker_underscore j (q + 0) hc0
    have h1 := marker_underscore j (q + 1) hc1
    omega

theorem marker_injective {i j : Nat} (h : marker i = marker j) : i = j := by
  by_contra hij
  exact marker_no_occ i j hij 0 (by rw [occursAt_iff, List.drop_zero, h])

theorem protTok_injective {i j : Nat} (h : protTok i = protTok j) : i = j := by
  by_contra hij
  exact protTok_no_occ i j hij 0 (by rw [occursAt_iff, List.drop_zero, h])

theorem not_infix_of_no_occ {pat t : Str} (h : ∀ q, ¬ occursAt pat t q) : ¬ pat <:+: t := by
  intro hinf
  rcases (infix_iff_occurs pat t).mp hinf with ⟨q, hq⟩
  exact h q hq

/-- The formula table of one extraction run carries consecutive indices
starting at the initial counter value (allocation is monotonically
increasing and never reuses an index). -/
theorem maskGo_keys (ms : List FMatch) : ∀ (res : Str) (b : Nat),
    ∃ n, (maskGo ms res [] b).2.map Prod.fst = List.range' b n := by
  induction ms with
  | nil => intro res b; exact ⟨0, by simp [maskGo]⟩
  | cons m ms ih =>
    intro res b
    obtain ⟨s, e, txt⟩ := m
    rw [maskGo_cons]
    by_cases h1 : (pyStrip txt).length < 3
    · rw [if_pos h1]; exact ih res b
    · rw [if_neg h1]
      by_cases h2 : isLikelyFormula txt
      · simp only [h2, Bool.not_true, Bool.false_eq_true, if_false]
        rw [maskGo_fs]
        rcases ih (res.take s ++ marker b ++ res.drop e) (b + 1) with ⟨n, hn⟩
        refine ⟨n + 1, ?_⟩
        simp only [List.map_append, List.singleton_append, List.map_cons, List.map_nil]
        rw [hn]
        rw [List.range'_succ]
        simp
      · simp only [Bool.not_eq_true] at h2
        simp only [h2, Bool.not_false, if_true]
        exact ih res b

theorem protAlloc_aux : ∀ (os : List Str) (k : Nat),
    ((os.enumFrom k).map (fun p => (protTok p.1, p.2))).map Prod.fst
      = (List.range' k os.length).map protTok := by
  intro os
  induction os with
  | nil => intro k; simp
  | cons o os ih =>
    intro k
    simp only [List.enumFrom, List.map_cons, List.length_cons, List.range'_succ]
    rw [ih (k + 1)]

/-- Token allocation in `_protect_formulas_and_notations` yields the
tokens `__PROTECTED_0__, __PROTECTED_1__, ...` in order. -/
theorem protAlloc_tokens (originals : List Str) :
    (protAlloc originals).map Prod.fst = (List.range originals.length).map protTok := by
  unfold protAlloc
  rw [show originals.enum = originals.enumFrom 0 from rfl, protAlloc_aux originals 0,
    List.range_eq_range']

-- ### Characterization lemmas for the chunked path and the retry loop

theorem translateChunk_trace (oracle : ChatCall → Except Str Str) (sys chunk : Str) :
    (translateChunk oracle sys chunk).2 = [ChatCall.mk sys chunk (3/10)] := by
  unfold translateChunk
  cases oracle (ChatCall.mk sys chunk (3/10)) <;> rfl

theorem chunkFold_spec (oracle : ChatCall → Except Str Str) (sys : Str) :
    ∀ (paras : List Str) (chunks : List (List Str)) (current : List Str) (size : Nat),
    paras.foldl (chunkStep oracle sys)
      ⟨current, size, chunks.map (fun c => (translateChunk oracle sys (joinDD c)).1),
        chunks.map (fun c => ChatCall.mk sys (joinDD c) (3/10))⟩
    = ⟨(paras.foldl (packStep (estimateTokens sys)) (chunks, current, size)).2.1,
        (paras.foldl (packStep (estimateTokens sys)) (chunks, current, size)).2.2,
        ((paras.foldl (packStep (estimateTokens sys)) (chunks, current, size)).1).map
          (fun c => (translateChunk oracle sys (joinDD c)).1),
        ((paras.foldl (packStep (estimateTokens sys)) (chunks, current, size)).1).map
          (fun c => ChatCall.mk sys (joinDD c) (3/10))⟩ := by
  intro paras
  induction paras with
  | nil => intro chunks current size; rfl
  | cons para paras ih =>
    intro chunks current size
    simp only [List.foldl_cons]
    by_cases hcond : size + estimateTokens para > maxAllowedTokens ∧ current ≠ []
    · have hstep : chunkStep oracle sys
          ⟨current, size, chunks.map (fun c => (translateChunk oracle sys (joinDD c)).1),
            chunks.map (fun c => ChatCall.mk sys (joinDD c) (3/10))⟩ para
          = ⟨[para], estimateTokens sys + estimateTokens para,
              (chunks ++ [current]).map (fun c => (translateChunk oracle sys (joinDD c)).1),
              (chunks ++ [current]).map (fun c => ChatCall.mk sys (joinDD c) (3/10))⟩ := by
        unfold chunkStep
        rw [if_pos hcond]
        simp only [List.map_append, List.map_cons, List.map_nil]
        have ht := translateChunk_trace oracle sys (joinDD current)
        rw [ht]
      have hpack : packStep (estimateTokens sys) (chunks, current, size) para
          = (chunks ++ [current], [para], estimateTokens sys + estimateTokens para) := by
        unfold packStep
        rw [if_pos hcond]
      rw [hstep, hpack]
      exact ih (chunks ++ [current]) [para] (estimateTokens sys + estimateTokens para)
    · have hstep : chunkStep oracle sys
          ⟨current, size, chunks.map (fun c => (translateChunk oracle sys (joinDD c)).1),
            chunks.map (fun c => ChatCall.mk sys (joinDD c) (3/10))⟩ para
          = ⟨current ++ [para], size + estimateTokens para,
              chunks.map (fun c => (translateChunk oracle sys (joinDD c)).1),
              chunks.map (fun c => ChatCall.mk sys (joinDD c) (3/10))⟩ := by
        unfold chunkStep
        rw [if_neg hcond]
      have hpack : packStep (estimateTokens sys) (chunks, current, size) para
          = (chunks, current ++ [para], size + estimateTokens para) := by
        unfold packStep
        rw [if_neg hcond]
      rw [hstep, hpack]
      exact ih chunks (current ++ [para]) (size + estimateTokens para)

/-- The chunked path translates exactly the packed chunks, one model
call per chunk, and joins the (stripped or fallen-back) answers with
blank lines in original order before restoring placeholders. -/
theorem translateChunked_spec (oracle : ChatCall → Except Str Str) (normChem : Str → Str)
    (sys text : Str) (prot : List (Str × Str)) :
    translateChunked oracle normChem sys text prot
      = (restoreProt normChem
          (joinDD ((packChunks sys text).map (fun c => (translateChunk oracle sys (joinDD c)).1)))
          prot,
        (packChunks sys text).map (fun c => ChatCall.mk sys (joinDD c) (3/10))) := by
  unfold translateChunked packChunks
  have h := chunkFold_spec oracle sys (splitParas text) [] [] (estimateTokens sys)
  simp only [List.map_nil] at h
  dsimp only
  rw [h]
  set r := (splitParas text).foldl (packStep (estimateTokens sys))
    ([], [], estimateTokens sys) with hr
  by_cases hc : r.2.1 ≠ []
  · rw [if_pos hc, if_pos hc]
    simp only [translateChunk_trace, List.map_append, List.map_cons, List.map_nil]
  · rw [if_neg hc, if_neg hc]

theorem recognizeAux_waits (outcomes : Nat → MathpixAttempt) (maxRetries : Nat)
    (backoff : ℚ) : ∀ (remaining attempt : Nat),
    (recognizeAux outcomes maxRetries backoff remaining attempt).2.1
      = specWaits outcomes maxRetries backoff remaining attempt := by
  intro remaining
  induction remaining with
  | zero => intro attempt; rfl
  | succ remaining ih =>
    intro attempt
    unfold recognizeAux specWaits
    cases outcomes attempt with
    | ok r => rfl
    | httpStatus code ra =>
      by_cases hc : code = 429
      · simp only [hc, if_true, ite_true]
        cases ra <;> simp [ih (attempt + 1)]
      · simp only [hc, if_false, ite_false]
        by_cases ha : attempt < maxRetries - 1
        · simp [ha, ih (attempt + 1)]
        · simp [ha]
    | timeout =>
      by_cases ha : attempt < maxRetries - 1
      · simp [ha, ih (attempt + 1)]
      · simp [ha]
    | exn =>
      by_cases ha : attempt < maxRetries - 1
      · simp [ha, ih (attempt + 1)]
      · simp [ha]

theorem recognizeAux_attempts (outcomes : Nat → MathpixAttempt) (maxRetries : Nat)
    (backoff : ℚ) : ∀ (remaining attempt : Nat),
    (recognizeAux outcomes maxRetries backoff remaining attempt).2.2 ≤ remaining + attempt := by
  intro remaining
  induction remaining with
  | zero => intro attempt; simp [recognizeAux]
  | succ remaining ih =>
    intro attempt
    unfold recognizeAux
    cases outcomes attempt with
    | ok r => simp; omega
    | httpStatus code ra =>
      by_cases hc : code = 429
      · simp only [hc, if_true, ite_true]
        cases ra <;> (have h9 := ih (attempt + 1); simp; omega)
      · simp only [hc, if_false, ite_false]
        by_cases ha : attempt < maxRetries - 1
        · have := ih (attempt + 1); simp [ha]; omega
        · simp [ha]; omega
    | timeout =>
      by_cases ha : attempt < maxRetries - 1
      · have := ih (attempt + 1); simp [ha]; omega
      · simp [ha]; omega
    | exn =>
      by_cases ha : attempt < maxRetries - 1
      · have := ih (attempt + 1); simp [ha]; omega
      · simp [ha]; omega

theorem recognizeAux_all_fail (outcomes : Nat → MathpixAttempt) (maxRetries : Nat)
    (backoff : ℚ) : ∀ (remaining attempt : Nat),
    (∀ a, attempt ≤ a → a < attempt + remaining → attemptOk (outcomes a) = false) →
    (recognizeAux outcomes maxRetries backoff remaining attempt).1 = none := by
  intro remaining
  induction remaining with
  | zero => intro attempt _; rfl
  | succ remaining ih =>
    intro attempt hfail
    unfold recognizeAux
    have h0 : attemptOk (outcomes attempt) = false := hfail attempt (Nat.le_refl _) (by omega)
    cases ho : outcomes attempt with
    | ok r => rw [ho] at h0; simp [attemptOk] at h0
    | httpStatus code ra =>
      by_cases hc : code = 429
      · simp only [hc, if_true, ite_true]
        cases ra <;> exact ih (attempt + 1) (fun a h1 h2 => hfail a (by omega) (by omega))
      · simp only [hc, if_false, ite_false]
        by_cases ha : attempt < maxRetries - 1
        · simp only [ha, if_true, ite_true]
          exact ih (attempt + 1) (fun a h1 h2 => hfail a (by omega) (by omega))
        · simp [ha]
    | timeout =>
      by_cases ha : attempt < maxRetries - 1
      · simp only [ha, if_true, ite_true]
        exact ih (attempt + 1) (fun a h1 h2 => hfail a (by omega) (by omega))
      · simp [ha]
    | exn =>
      by_cases ha : attempt < maxRetries - 1
      · simp only [ha, if_true, ite_true]
        exact ih (attempt + 1) (fun a h1 h2 => hfail a (by omega) (by omega))
      · simp [ha]

-- ### The claims

theorem estimateTokens_replicate (n : Nat) (c : Char) :
    estimateTokens (List.replicate n c) = n / 3 := by
  unfold estimateTokens
  rw [List.length_replicate]

theorem pyStrip_eq_nil {t : Str} (h : ∀ c ∈ t, isPySpace c = true) : pyStrip t = [] := by
  unfold pyStrip
  have h1 : t.dropWhile isPySpace = [] := List.dropWhile_eq_nil_iff.mpr h
  rw [h1]
  rfl

/-- C6: within a single run, placeholder tokens are allocated with
strictly increasing, never-reused indices (the formula table's keys are
a consecutive range, and `_protect_formulas_and_notations` hands out
`__PROTECTED_0__, __PROTECTED_1__, ...` in order), no two distinct
tokens are equal, and no token's literal text is a substring of any
other token's literal text, within a family or across the two
families. -/
theorem C6_token_uniqueness :
    (∀ T : Str, ∃ n, (pyExtract T).2.map Prod.fst = List.range' 0 n)
    ∧ (∀ os : List Str, (protAlloc os).map Prod.fst = (List.range os.length).map protTok)
    ∧ (∀ i j : Nat, i ≠ j →
        marker i ≠ marker j ∧ ¬ marker i <:+: marker j
          ∧ protTok i ≠ protTok j ∧ ¬ protTok i <:+: protTok j)
    ∧ (∀ i j : Nat, ¬ marker i <:+: protTok j ∧ ¬ protTok i <:+: marker j) := by
  refine ⟨fun T => maskGo_keys _ T 0, protAlloc_tokens, fun i j hij => ?_, fun i j => ?_⟩
  · exact ⟨fun h => hij (marker_injective h),
      not_infix_of_no_occ (fun q => marker_no_occ i j hij q),
      fun h => hij (protTok_injective h),
      not_infix_of_no_occ (fun q => protTok_no_occ i j hij q)⟩
  · exact ⟨not_infix_of_no_occ (fun q => (marker_protTok_no_occ i j q).1),
      not_infix_of_no_occ (fun q => (marker_protTok_no_occ i j q).2)⟩

/-- C6 witness: the uniqueness statement at the concrete indices 1 and
10 (whose decimal texts share a digit). -/
theorem C6_token_uniqueness_witness :
    marker 1 ≠ marker 10 ∧ ¬ marker 1 <:+: marker 10
      ∧ protTok 1 ≠ protTok 10 ∧ ¬ protTok 1 <:+: protTok 10 :=
  C6_token_uniqueness.2.2.1 1 10 (by decide)

/-- C8: in OMML mode the insertion falls back to the image path whenever
the MathML → OMML conversion is unavailable or fails, including when no
MathML is present — and since `_mathml_to_omml` always raises
`NotImplementedError` in this code base, the OMML insertion is
unconditionally the image insertion and never aborts the build. -/
theorem C8_omml_fallback (lxml : Bool) (renderer : Option (Str → Option Unit))
    (ft : Str) (recog : Option RecognizedFormula) :
    insertFormulaAsOmml lxml renderer ft recog = insertFormulaAsImage renderer ft recog := by
  unfold insertFormulaAsOmml
  split
  · rfl
  · split
    · rfl
    · split
      · rfl
      · split
        · rfl
        · rfl

/-- C9: `TranslationPipeline.process` never lets a stage failure escape:
every run either succeeds or returns the structured failure result (with
`success = False` and the cause in `error`), and when every stage
succeeds the result carries `success = True`, the built file, the
extracted content, and the detected/recognized formula counts. -/
theorem C9_pipeline_boundary (deps : PipelineDeps) (u : Bool) :
    ((pipelineProcess deps u).success = true
      ∨ ∃ e, pipelineProcess deps u = pipelineFailure e
          ∧ (pipelineProcess deps u).error = some e)
    ∧ (∀ (content : ExtractedContent) (translated path : Str),
        deps.extractPdf = .ok content →
        deps.builderInit = .ok () →
        deps.translateText (pyExtract content.text).1 = .ok translated →
        deps.buildDoc translated content.page_images = .ok path →
        pipelineProcess deps u
          = ⟨path, content, (pyExtract content.text).2.length,
              (if u ∧ deps.recognizerAvailable then
                recognizeFormulas deps (pyExtract content.text).2 content.page_images
              else []).length, true, none⟩) := by
  constructor
  · cases hx : deps.extractPdf with
    | error e =>
      have heq : pipelineProcess deps u = pipelineFailure e := by
        unfold pipelineProcess
        simp only [hx]
      exact Or.inr ⟨e, heq, by rw [heq]; rfl⟩
    | ok content =>
      cases hb : deps.builderInit with
      | error e =>
        have heq : pipelineProcess deps u = pipelineFailure e := by
          unfold pipelineProcess
          simp only [hx, hb]
        exact Or.inr ⟨e, heq, by rw [heq]; rfl⟩
      | ok u0 =>
        cases ht : deps.translateText (pyExtract content.text).1 with
        | error e =>
          have heq : pipelineProcess deps u = pipelineFailure e := by
            unfold pipelineProcess
            simp only [hx, hb, ht]
          exact Or.inr ⟨e, heq, by rw [heq]; rfl⟩
        | ok translated =>
          cases hd : deps.buildDoc translated content.page_images with
          | error e =>
            have heq : pipelineProcess deps u = pipelineFailure e := by
              unfold pipelineProcess
              simp only [hx, hb, ht, hd]
            exact Or.inr ⟨e, heq, by rw [heq]; rfl⟩
          | ok path =>
            refine Or.inl ?_
            unfold pipelineProcess
            simp only [hx, hb, ht, hd]
  · intro content translated path hx hb ht hd
    unfold pipelineProcess
    simp only [hx, hb, ht, hd]

/-- C9 witness: the success characterization at a dependency bundle in
which every stage succeeds on the empty document. -/
theorem C9_pipeline_boundary_witness :
    pipelineProcess c9Deps true
      = ⟨strOf "out.docx", ⟨[], [], 0, []⟩,
          (pyExtract (ExtractedContent.mk [] [] 0 []).text).2.length,
          (if true ∧ c9Deps.recognizerAvailable then
            recognizeFormulas c9Deps (pyExtract (ExtractedContent.mk [] [] 0 []).text).2
              (ExtractedContent.mk [] [] 0 []).page_images
          else []).length, true, none⟩ :=
  (C9_pipeline_boundary c9Deps true).2 ⟨[], [], 0, []⟩ (strOf "t") (strOf "out.docx")
    rfl rfl rfl rfl

/-- C10: a whitespace-only (or empty) input is returned unchanged by
`TextTranslator.translate` without any model call. -/
theorem C10_blank_input (glossFind : Option (Option Str)) (oracle : ChatCall → Except Str Str)
    (text : Str) (cfg : TranslationConfigM) (h : ∀ c ∈ text, isPySpace c = true) :
    textTranslate glossFind oracle text cfg = (.ok text, 0) := by
  unfold textTranslate
  rw [if_pos (pyStrip_eq_nil h)]

/-- C10 witness: a concrete blank input (spaces, newline, tab) with an
arbitrary oracle and configuration. -/
theorem C10_blank_input_witness :
    textTranslate none (fun _ => Except.ok []) (strOf "  \n\t")
        (TranslationConfigM.mk SrcLang.ru (strOf "en") ModelKind.general true (3/10))
      = (.ok (strOf "  \n\t"), 0) :=
  C10_blank_input none (fun _ => Except.ok []) (strOf "  \n\t")
    (TranslationConfigM.mk SrcLang.ru (strOf "en") ModelKind.general true (3/10))
    (by decide)

/-- C2: on total placeholder loss the single-shot path retries exactly
once, with the strict system prompt and temperature 0.1 (lower than the
first call's 0.3), and proceeds with the retry's restored output —
provided the restored retry answer is non-empty. -/
theorem C2_strict_retry (oracle : ChatCall → Except Str Str) (normChem : Str → Str)
    (sys text : Str) (prot : List (Str × Str)) (r1 r2 : Str)
    (h1 : oracle (ChatCall.mk sys text (3/10)) = .ok r1)
    (hprot : prot ≠ [])
    (hloss : preservedCount prot (pyStrip r1) = 0)
    (h2 : oracle (ChatCall.mk (strictPrompt sys) text (1/10)) = .ok r2)
    (hres : restoreProt normChem (pyStrip r2) prot ≠ []) :
    translateSingleShot oracle normChem sys text prot
      = (.ok (restoreProt normChem (pyStrip r2) prot),
         [ChatCall.mk sys text (3/10), ChatCall.mk (strictPrompt sys) text (1/10)])
    ∧ (1 : ℚ)/10 < 3/10 := by
  constructor
  · unfold translateSingleShot
    simp only [h1]
    rw [if_pos ⟨hprot, hloss⟩]
    simp only [h2]
    rw [if_neg hres]
  · norm_num

/-- C2 witness: the retry characterization at a concrete oracle whose
first answer loses the placeholder and whose strict retry answers
non-empty prose. -/
theorem C2_strict_retry_witness :
    translateSingleShot c2WitnessOracle (fun t => t) (strOf "sys") (strOf "text")
        [(protTok 0, strOf "x=1")]
      = (.ok (restoreProt (fun t => t) (pyStrip (strOf "world")) [(protTok 0, strOf "x=1")]),
         [ChatCall.mk (strOf "sys") (strOf "text") (3/10),
          ChatCall.mk (strictPrompt (strOf "sys")) (strOf "text") (1/10)])
    ∧ (1 : ℚ)/10 < 3/10 :=
  C2_strict_retry c2WitnessOracle (fun t => t) (strOf "sys") (strOf "text")
    [(protTok 0, strOf "x=1")] (strOf "hello") (strOf "world")
    rfl (by decide) (by decide) rfl (by decide)

/-- C2 counterexample: when the strict retry answers an empty
completion, the claimed "proceed with the retry's output instead of
raising an error" fails — the code raises `ValueError("OpenAI вернул
пустой ответ")` (modelled as `.error`), after the two calls (the first
with the plain prompt, the retry with the strict prompt). -/
theorem C2_empty_retry_raises :
    (translateSingleShot c2Oracle (fun t => t) (strOf "sys") (strOf "text")
        [(protTok 0, strOf "x=1")]).1
      = .error (strOf "OpenAI вернул пустой ответ")
    ∧ ((translateSingleShot c2Oracle (fun t => t) (strOf "sys") (strOf "text")
        [(protTok 0, strOf "x=1")]).2).map (fun c => (c.sys, c.user))
      = [(strOf "sys", strOf "text"), (strictPrompt (strOf "sys"), strOf "text")] :=
  ⟨rfl, rfl⟩

/-- C3: when the estimated request exceeds the budget even after the
glossary shrink, the text is split on paragraph boundaries into greedily
packed sequential chunks, each chunk is translated by exactly one model
call (a failed call falls back to the chunk's untranslated text, with no
placeholder re-validation), and the outputs are joined with blank lines
in original order before a single final placeholder restoration. -/
theorem C3_chunked_path (gm : Option (Nat → Option Str)) (oracle : ChatCall → Except Str Str)
    (normChem : Str → Str) (mk : ModelKind) (src : SrcLang) (target text : Str)
    (prot : List (Str × Str))
    (h1 : estimateTokens (initialSys gm mk src target prot) + estimateTokens text
            > maxAllowedTokens)
    (h2 : estimateTokens (shrunkSys gm mk src target prot) + estimateTokens text
            > maxAllowedTokens) :
    translateService gm oracle normChem mk src target text prot
      = (.ok (restoreProt normChem
            (joinDD ((packChunks (shrunkSys gm mk src target prot) text).map
              (fun c => (translateChunk oracle (shrunkSys gm mk src target prot)
                (joinDD c)).1)))
            prot),
         (packChunks (shrunkSys gm mk src target prot) text).map
           (fun c => ChatCall.mk (shrunkSys gm mk src target prot) (joinDD c) (3/10))) := by
  unfold translateService
  dsimp only
  rw [if_pos h1, if_pos h2, translateChunked_spec]

/-- C3 witness: the chunked dispatch at a 78000-character input, whose
estimated size alone exceeds the 25000-token budget. -/
theorem C3_chunked_path_witness :
    translateService none c3Oracle (fun t => t) ModelKind.general SrcLang.ru (strOf "en")
        (List.replicate 78000 'a') []
      = (.ok (restoreProt (fun t => t)
            (joinDD ((packChunks (shrunkSys none ModelKind.general SrcLang.ru (strOf "en") [])
                (List.replicate 78000 'a')).map
              (fun c => (translateChunk c3Oracle
                (shrunkSys none ModelKind.general SrcLang.ru (strOf "en") [])
                (joinDD c)).1)))
            []),
         (packChunks (shrunkSys none ModelKind.general SrcLang.ru (strOf "en") [])
             (List.replicate 78000 'a')).map
           (fun c => ChatCall.mk (shrunkSys none ModelKind.general SrcLang.ru (strOf "en") [])
             (joinDD c) (3/10))) := by
  have hlen : estimateTokens (List.replicate 78000 'a') = 26000 := by
    rw [estimateTokens_replicate]
  have hmax : maxAllowedTokens = 25000 := rfl
  exact C3_chunked_path none c3Oracle (fun t => t) ModelKind.general SrcLang.ru (strOf "en")
    (List.replicate 78000 'a') [] (by omega) (by omega)

/-- C3 counterexample: a chunk whose translation loses the placeholder
is accepted as-is — one single call, no strict retry, and the final
output no longer contains the placeholder (the claimed per-chunk
re-validation does not exist). -/
theorem C3_no_chunk_validation :
    (translateChunked c3Oracle (fun t => t) (strOf "sys")
        (protTok 0 ++ strOf " = x") [(protTok 0, strOf "v_k")]).1 = strOf "hello"
    ∧ ((translateChunked c3Oracle (fun t => t) (strOf "sys")
        (protTok 0 ++ strOf " = x") [(protTok 0, strOf "v_k")]).2).map
          (fun c => (c.sys, c.user))
      = [(strOf "sys", protTok 0 ++ strOf " = x")]
    ∧ preservedCount [(protTok 0, strOf "v_k")] (strOf "hello") = 0 :=
  ⟨rfl, rfl, rfl⟩

/-- C7: the retry loop of `FormulaRecognizer.recognize` performs at most
`max_retries` attempts, its sleep schedule is exactly the expected one
(server `Retry-After` on a 429 when present, otherwise the truncated
`int(backoff * 2^attempt)`; the raw `backoff * 2^attempt` on other
failures, and only between attempts), and when every attempt fails it
returns `None` instead of raising or looping forever. -/
theorem C7_retry_policy (available : Bool) (outcomes : Nat → MathpixAttempt)
    (maxRetries : Nat) (backoff : ℚ) :
    (recognize available outcomes maxRetries backoff).2.2 ≤ maxRetries
    ∧ (recognize available outcomes maxRetries backoff).2.1
        = (if available then specWaits outcomes maxRetries backoff maxRetries 0 else [])
    ∧ ((∀ a : Nat, a < maxRetries → attemptOk (outcomes a) = false) →
        (recognize available outcomes maxRetries backoff).1 = none) := by
  unfold recognize
  cases available with
  | false => exact ⟨Nat.zero_le _, rfl, fun _ => rfl⟩
  | true =>
    simp only [if_true]
    refine ⟨?_, recognizeAux_waits outcomes maxRetries backoff maxRetries 0, fun hf => ?_⟩
    · have := recognizeAux_attempts outcomes maxRetries backoff maxRetries 0
      omega
    · exact recognizeAux_all_fail outcomes maxRetries backoff maxRetries 0
        (fun a h1 h2 => hf a (by omega))

/-- C7 witness: the policy at two always-timing-out attempts with
backoff factor 1. -/
theorem C7_retry_policy_witness :
    (recognize true (fun _ => MathpixAttempt.timeout) 2 1).2.2 ≤ 2
    ∧ (recognize true (fun _ => MathpixAttempt.timeout) 2 1).2.1
        = (if true then specWaits (fun _ => MathpixAttempt.timeout) 2 1 2 0 else [])
    ∧ (recognize true (fun _ => MathpixAttempt.timeout) 2 1).1 = none :=
  ⟨(C7_retry_policy true (fun _ => MathpixAttempt.timeout) 2 1).1,
   (C7_retry_policy true (fun _ => MathpixAttempt.timeout) 2 1).2.1,
   (C7_retry_policy true (fun _ => MathpixAttempt.timeout) 2 1).2.2 (by decide)⟩

/-- C7 counterexample: on a 429 with no `Retry-After` header the wait is
`int(backoff * 2^attempt)` — truncated to an integer — not the raw
`backoff * 2^attempt` of the claim: with backoff 3/2 the waits are
[1, 3, 6], and the first differs from 3/2. -/
theorem C7_429_wait_truncated :
    recognize true (fun _ => MathpixAttempt.httpStatus 429 none) 3 (3/2)
      = (none, [1, 3, 6], 3)
    ∧ (3 : ℚ)/2 * 2 ^ (0 : Nat) ≠ 1 := by
  constructor
  · show recognizeAux (fun _ => MathpixAttempt.httpStatus 429 none) 3 (3/2) 3 0 = _
    norm_num [recognizeAux, pyTruncQ]
  · norm_num

/-- C1: the round trip `restore(extract(T)) == T` holds for every input
in which the literal placeholder prefix `<<<FORMULA_` does not occur
(whether zero, one, or arbitrarily many formulas are masked). -/
theorem C1_round_trip (T : Str) (hT : Clean T) :
    pyRestore (pyExtract T).1 (pyExtract T).2 = T :=
  extract_restore_of_clean T hT

/-- C1 witness: the round trip on the spec's own scenario, a sentence
with one display-math formula. -/
theorem C1_round_trip_witness :
    Clean (strOf "Energy equals \\[E = mc^2\\] in physics.")
    ∧ pyRestore (pyExtract (strOf "Energy equals \\[E = mc^2\\] in physics.")).1
        (pyExtract (strOf "Energy equals \\[E = mc^2\\] in physics.")).2
      = strOf "Energy equals \\[E = mc^2\\] in physics." :=
  ⟨by decide, C1_round_trip (strOf "Energy equals \\[E = mc^2\\] in physics.") (by decide)⟩

/-- C1 counterexample: an input that already contains marker-shaped
text breaks the unconditional round trip — `restore` replaces all
occurrences of each marker, so a pre-existing `<<<FORMULA_1>>>` inside a
masked span is rewritten with another formula's text. -/
theorem C1_not_universal :
    pyRestore (pyExtract (strOf "$a=b$\n$x <<<FORMULA_1>>> = 2$")).1
        (pyExtract (strOf "$a=b$\n$x <<<FORMULA_1>>> = 2$")).2
      ≠ strOf "$a=b$\n$x <<<FORMULA_1>>> = 2$" := by decide

/-- C4: on `"\(x=1\)\(y=2\)"` the extractor detects two distinct
non-overlapping spans, but — processing matches by descending start —
assigns index 0 to the right formula `\(y=2\)` and index 1 to the left
formula `\(x=1\)`, so the masked text is `<<<FORMULA_1>>><<<FORMULA_0>>>`
(not `<<<FORMULA_0>>><<<FORMULA_1>>>` as claimed). -/
theorem C4_adjacent_formulas :
    pyExtract (strOf "\\(x=1\\)\\(y=2\\)")
      = (strOf "<<<FORMULA_1>>><<<FORMULA_0>>>",
         [(0, strOf "\\(y=2\\)"), (1, strOf "\\(x=1\\)")]) := by decide

/-- C4 counterexample: the claimed masked text is not the one
produced. -/
theorem C4_not_left_to_right :
    (pyExtract (strOf "\\(x=1\\)\\(y=2\\)")).1 ≠ strOf "<<<FORMULA_0>>><<<FORMULA_1>>>" := by
  decide

/-- C5: detection is not idempotent in the masked image — on input
`"\(x=1\)"` the first run masks to `<<<FORMULA_0>>>`, and the second run
on that masked text again detects one span (the placeholder itself
matches the `math_expression` pattern and passes `_is_likely_formula`),
so its formulas table has one entry, not zero; its output text happens
to equal its input. -/
theorem C5_detection_not_idempotent :
    (pyExtract (strOf "\\(x=1\\)")).1 = strOf "<<<FORMULA_0>>>"
    ∧ (pyExtract ((pyExtract (strOf "\\(x=1\\)")).1)).2
        = [(0, strOf "<<<FORMULA_0>>>")]
    ∧ (pyExtract ((pyExtract (strOf "\\(x=1\\)")).1)).1
        = (pyExtract (strOf "\\(x=1\\)")).1 := by
  exact ⟨by decide, by decide, by decide⟩

end SinceTranslator
